import Mathlib

/-!
Shallow embedding of the cycle-analysis core (Tarjan SCC and Johnson cycle
enumeration) of `bv-graph-wasm/src/algorithms/cycles.rs`, together with
theorems settling the specification claims about it.

Conventions of the embedding:
- A directed graph is its adjacency-list table; node indices are `Nat`.
- `usize::MAX` sentinels (the "unvisited" marker of the Rust code) are
  modelled as `none : Option Nat`; `usize` minima with the sentinel behave
  like minima in `Option Nat` with `none` as top, computed by `omin`.
- The general recursion of `strongconnect`, `circuit` and `unblock` is
  modelled with an explicit fuel parameter; running out of fuel yields
  `none`, as does the one possible panic (`stack.pop().unwrap()` in
  `tarjan_scc`), so `some` results are exactly the completed executions.
- The Rust `HashSet<usize>` entries of `blocked_map` are modelled as
  duplicate-free lists in insertion order; `drain` iterates in that order.
-/

/-- Directed graph as a dense adjacency-list table: entry `v` holds the
ordered successor list of node `v` (the Graph Read Contract). -/
structure DiGraph where
  succs : List (List Nat)
  deriving DecidableEq, Repr

/-- Number of nodes, `graph.len()` in the source. -/
def DiGraph.len (g : DiGraph) : Nat := g.succs.length

/-- Ordered successors of node `v`, `graph.successors_slice(v)` in the source. -/
def DiGraph.successors (g : DiGraph) (v : Nat) : List Nat := g.succs.getD v []

/-- The Graph Read Contract: every stored successor index is in range. -/
def DiGraph.Valid (g : DiGraph) : Prop :=
  ∀ v, v < g.len → ∀ w ∈ g.successors v, w < g.len

instance DiGraph.decValid (g : DiGraph) : Decidable g.Valid :=
  inferInstanceAs (Decidable (∀ v, v < g.len → ∀ w ∈ g.successors v, w < g.len))

/-- Result record of `enumerate_cycles_with_info`. -/
structure CycleEnumerationResult where
  cycles : List (List Nat)
  truncated : Bool
  count : Nat
  deriving DecidableEq, Repr

/-- Result record of `tarjan_scc`. -/
structure SCCResult where
  components : List (List Nat)
  has_cycles : Bool
  cycle_count : Nat
  deriving DecidableEq, Repr

/-- Mutable state of Johnson's algorithm: the `blocked` vector, the
`blocked_map` dependency sets, the path `stack` and the accumulated
`cycles`, exactly the four mutable locals of `enumerate_cycles`. -/
structure JSt where
  blocked : List Bool
  blocked_map : List (List Nat)
  stack : List Nat
  cycles : List (List Nat)
  deriving DecidableEq, Repr

/-- Iteration over the drained dependents inside `unblock`; `recur` is the
recursive `unblock` call at the next smaller fuel. -/
def unblockGo (recur : Nat → List Bool → List (List Nat) →
      Option (List Bool × List (List Nat)))
    (ws : List Nat) (bl : List Bool) (bm : List (List Nat)) :
    Option (List Bool × List (List Nat)) :=
  match ws with
  | [] => some (bl, bm)
  | w :: rest =>
    if bl.getD w false then
      match recur w bl bm with
      | none => none
      | some (bl', bm') => unblockGo recur rest bl' bm'
    else unblockGo recur rest bl bm

/-- The `unblock` helper of `enumerate_cycles`: unblock `u`, drain its
dependents and recursively unblock the blocked ones. -/
def unblock (fuel : Nat) (u : Nat) (bl : List Bool) (bm : List (List Nat)) :
    Option (List Bool × List (List Nat)) :=
  match fuel with
  | 0 => none
  | fuel' + 1 =>
    unblockGo (fun w bl' bm' => unblock fuel' w bl' bm')
      (bm.getD u []) (bl.set u false) (bm.set u [])

/-- The failure branch at the end of `circuit`: insert `v` into
`blocked_map[w]` for every successor `w` of `v` with `w ≥ min_node`
(`HashSet::insert`, so duplicates are not added). -/
def blockAdd (minNode v : Nat) (ws : List Nat) (bm : List (List Nat)) :
    List (List Nat) :=
  match ws with
  | [] => bm
  | w :: rest =>
    if minNode ≤ w then
      if v ∈ bm.getD w [] then blockAdd minNode v rest bm
      else blockAdd minNode v rest (bm.set w (bm.getD w [] ++ [v]))
    else blockAdd minNode v rest bm

/-- The successor loop of `circuit`; `recur` is the recursive `circuit`
call at the next smaller fuel. The third component of the result is
true when the loop exited early through the capped `return found` right
after recording a cycle (that path already pops the stack). -/
def circuitLoop (recur : Nat → JSt → Option (JSt × Bool))
    (start maxCy minNode : Nat) (ws : List Nat)
    (st : JSt) (found : Bool) : Option (JSt × Bool × Bool) :=
  match ws with
  | [] => some (st, found, false)
  | w :: rest =>
    if w < minNode then circuitLoop recur start maxCy minNode rest st found
    else if w = start then
      let st1 : JSt := { st with cycles := st.cycles ++ [st.stack] }
      if maxCy ≤ st1.cycles.length then
        some ({ st1 with stack := st1.stack.dropLast }, true, true)
      else circuitLoop recur start maxCy minNode rest st1 true
    else if st.blocked.getD w false then
      circuitLoop recur start maxCy minNode rest st found
    else
      match recur w st with
      | none => none
      | some (st1, f) => circuitLoop recur start maxCy minNode rest st1 (found || f)

/-- The `circuit` search of `enumerate_cycles`: depth-first search from
`start` restricted to nodes `≥ minNode`, recording a cycle whenever a
successor equals `start`. Returns the updated state and the `found` flag. -/
def circuit (g : DiGraph) (start maxCy minNode : Nat) (fuel : Nat) (v : Nat) (st : JSt) :
    Option (JSt × Bool) :=
  match fuel with
  | 0 => none
  | fuel' + 1 =>
    if maxCy ≤ st.cycles.length then some (st, false)
    else
      let st1 : JSt := { st with stack := st.stack ++ [v], blocked := st.blocked.set v true }
      match circuitLoop (fun w stw => circuit g start maxCy minNode fuel' w stw)
          start maxCy minNode (g.successors v) st1 false with
      | none => none
      | some (st2, found, true) => some (st2, found)
      | some (st2, found, false) =>
        if found then
          match unblock fuel' v st2.blocked st2.blocked_map with
          | none => none
          | some (bl, bm) =>
            some ({ st2 with blocked := bl, blocked_map := bm,
                             stack := st2.stack.dropLast }, found)
        else
          some ({ st2 with blocked_map := blockAdd minNode v (g.successors v) st2.blocked_map,
                           stack := st2.stack.dropLast }, found)

/-- The start-node loop of `enumerate_cycles`: one round of `circuit` per
start node in increasing order, resetting the blocked state before each
round and breaking as soon as the cap is reached. -/
def enumRounds (g : DiGraph) (maxCy fuel : Nat) (starts : List Nat) (st : JSt) :
    Option JSt :=
  match starts with
  | [] => some st
  | s :: rest =>
    if maxCy ≤ st.cycles.length then some st
    else
      let st1 : JSt := { st with blocked := List.replicate g.len false,
                                 blocked_map := List.replicate g.len [] }
      match circuit g s maxCy s fuel s st1 with
      | none => none
      | some (st2, _) => enumRounds g maxCy fuel rest st2

/-- `enumerate_cycles`: Johnson's algorithm with a cap, returning the list
of recorded cycles (bottom-to-top path order, as `stack.clone()` does). -/
def enumerate_cycles (g : DiGraph) (maxCy fuel : Nat) : Option (List (List Nat)) :=
  if g.len = 0 ∨ maxCy = 0 then some []
  else
    match enumRounds g maxCy fuel (List.range g.len)
        ⟨List.replicate g.len false, List.replicate g.len [], [], []⟩ with
    | none => none
    | some st => some st.cycles

/-- `enumerate_cycles_with_info`: wraps `enumerate_cycles` and sets
`truncated := count >= max_cycles`. -/
def enumerate_cycles_with_info (g : DiGraph) (maxCy fuel : Nat) :
    Option CycleEnumerationResult :=
  match enumerate_cycles g maxCy fuel with
  | none => none
  | some cs => some ⟨cs, decide (maxCy ≤ cs.length), cs.length⟩

/-- Mutable state of Tarjan's algorithm: the discovery counter `idx` and
the `indices`, `lowlink`, `on_stack`, `stack` and `components` locals of
`tarjan_scc`. `none` in `indices` or `lowlink` models the `usize::MAX`
sentinel (unvisited). -/
structure TSt where
  idx : Nat
  indices : List (Option Nat)
  lowlink : List (Option Nat)
  on_stack : List Bool
  stack : List Nat
  components : List (List Nat)
  deriving DecidableEq, Repr

/-- Minimum of two `usize` values where `none` stands for `usize::MAX`. -/
def omin (a b : Option Nat) : Option Nat :=
  match a, b with
  | none, b => b
  | some x, none => some x
  | some x, some y => some (min x y)

/-- The SCC-collection loop of `strongconnect`, operating on the reversed
stack (top first): pop entries until `v` is found, returning the popped
segment in pop order and the remaining reversed stack. `none` models the
`stack.pop().unwrap()` panic on an empty stack. -/
def popSplit (v : Nat) (ws : List Nat) : Option (List Nat × List Nat) :=
  match ws with
  | [] => none
  | w :: rest =>
    if w = v then some ([w], rest)
    else
      match popSplit v rest with
      | none => none
      | some (comp, rest') => some (w :: comp, rest')

/-- The successor loop of `strongconnect`; `recur` is the recursive
`strongconnect` call at the next smaller fuel. -/
def succLoop (recur : Nat → TSt → Option TSt) (v : Nat) (ws : List Nat)
    (st : TSt) : Option TSt :=
  match ws with
  | [] => some st
  | w :: rest =>
    if (st.indices.getD w none).isNone then
      match recur w st with
      | none => none
      | some st1 =>
        let lw := omin (st1.lowlink.getD v none) (st1.lowlink.getD w none)
        succLoop recur v rest { st1 with lowlink := st1.lowlink.set v lw }
    else if st.on_stack.getD w false then
      let lw := omin (st.lowlink.getD v none) (st.indices.getD w none)
      succLoop recur v rest { st with lowlink := st.lowlink.set v lw }
    else succLoop recur v rest st

/-- The recursive `strongconnect` of `tarjan_scc`. The fuel bounds the
recursion depth; `none` is fuel exhaustion or the pop panic. -/
def strongconnect (g : DiGraph) (fuel : Nat) (v : Nat) (st : TSt) : Option TSt :=
  match fuel with
  | 0 => none
  | fuel' + 1 =>
    let st1 : TSt := { st with
      indices := st.indices.set v (some st.idx),
      lowlink := st.lowlink.set v (some st.idx),
      idx := st.idx + 1,
      stack := st.stack ++ [v],
      on_stack := st.on_stack.set v true }
    match succLoop (fun w stw => strongconnect g fuel' w stw) v (g.successors v) st1 with
    | none => none
    | some st2 =>
      if st2.lowlink.getD v none = st2.indices.getD v none then
        match popSplit v st2.stack.reverse with
        | none => none
        | some (comp, restRev) =>
          some { st2 with stack := restRev.reverse,
                          on_stack := comp.foldl (fun os w => os.set w false) st2.on_stack,
                          components := st2.components ++ [comp] }
      else some st2

/-- The root loop of `tarjan_scc`: run `strongconnect` from every still
unvisited node in increasing index order. -/
def tarjanMain (g : DiGraph) (fuel : Nat) (vs : List Nat) (st : TSt) : Option TSt :=
  match vs with
  | [] => some st
  | v :: rest =>
    if (st.indices.getD v none).isNone then
      match strongconnect g fuel v st with
      | none => none
      | some st1 => tarjanMain g fuel rest st1
    else tarjanMain g fuel rest st

/-- Initial Tarjan state for a graph with `n` nodes. -/
def tarjanInit (n : Nat) : TSt :=
  ⟨0, List.replicate n none, List.replicate n none, List.replicate n false, [], []⟩

/-- `tarjan_scc`: Tarjan's SCC algorithm. The recursion depth of
`strongconnect` is bounded by the number of unvisited nodes, so fuel
`g.len` always suffices (proved below for valid graphs). -/
def tarjan_scc (g : DiGraph) : Option SCCResult :=
  if g.len = 0 then some ⟨[], false, 0⟩
  else
    match tarjanMain g g.len (List.range g.len) (tarjanInit g.len) with
    | none => none
    | some st =>
      some ⟨st.components,
            decide (0 < st.components.countP (fun c => 1 < c.length)),
            st.components.countP (fun c => 1 < c.length)⟩

/-- The `has_cycles` convenience wrapper of the source. -/
def has_cycles (g : DiGraph) : Option Bool :=
  (tarjan_scc g).map SCCResult.has_cycles

/-- A recorded cycle in canonical rotation: it is nonempty and its first
element is a lower bound of (hence the minimum of) its elements. -/
def HeadMin (c : List Nat) : Prop :=
  ∃ h t, c = h :: t ∧ ∀ x ∈ c, h ≤ x

/-- All recorded cycles are in canonical rotation. -/
def CycGood (cs : List (List Nat)) : Prop :=
  ∀ c ∈ cs, HeadMin c

/-- The path stack of a `circuit` round with start node `start`: all
entries are `≥ start` and the bottom entry is `start`. -/
def StkOk (start : Nat) (stk : List Nat) : Prop :=
  (∀ x ∈ stk, start ≤ x) ∧ stk.head? = some start

/-- The discovery index of `v` as a plain number (defaulting to 0); the
invariants below only ever use it on visited nodes, where it is the value
stored in `indices`. -/
def idxv (st : TSt) (v : Nat) : Nat := (st.indices.getD v none).getD 0

/-- Number of nodes not yet visited by the Tarjan traversal. -/
def unvisitedCount (g : DiGraph) (st : TSt) : Nat :=
  ((List.range g.len).filter (fun v => (st.indices.getD v none).isNone)).length

/-- The global invariant of Tarjan's algorithm, relating the discovery
indices, low-links, explicit stack, on-stack flags and collected
components of a traversal state. -/
structure TInv (g : DiGraph) (st : TSt) : Prop where
  ilen : st.indices.length = g.len
  llen : st.lowlink.length = g.len
  olen : st.on_stack.length = g.len
  smem : ∀ v ∈ st.stack, v < g.len
  snodup : st.stack.Nodup
  sflag : ∀ v, v < g.len → (st.on_stack.getD v false = true ↔ v ∈ st.stack)
  svisited : ∀ v ∈ st.stack, st.indices.getD v none ≠ none
  ibound : ∀ v i, st.indices.getD v none = some i → i < st.idx
  lowle : ∀ v i, st.indices.getD v none = some i →
    ∃ l, st.lowlink.getD v none = some l ∧ l ≤ i
  ssorted : st.stack.Pairwise (fun a b => idxv st a < idxv st b)
  lwitness : ∀ v ∈ st.stack, ∃ u ∈ st.stack,
    st.indices.getD u none = st.lowlink.getD v none
  crange : ∀ c ∈ st.components, ∀ v ∈ c, v < g.len
  cnodup : ∀ c ∈ st.components, c.Nodup
  cdisj : st.components.Pairwise (fun c d => ∀ x, x ∈ c → x ∉ d)
  cvisited : ∀ c ∈ st.components, ∀ v ∈ c, st.indices.getD v none ≠ none
  cstack : ∀ c ∈ st.components, ∀ v ∈ c, v ∉ st.stack
  cover : ∀ v, v < g.len → st.indices.getD v none ≠ none →
    v ∈ st.stack ∨ ∃ c ∈ st.components, v ∈ c

/-- Postcondition of a completed `strongconnect g fuel v st = some st'`
call: the invariant holds again and the state evolved in the expected,
monotone way. -/
structure TPost (g : DiGraph) (v : Nat) (st st' : TSt) : Prop where
  inv : TInv g st'
  sext : ∃ ext, st'.stack = st.stack ++ ext
  iext : ∀ x i, st.indices.getD x none = some i → st'.indices.getD x none = some i
  lpres : ∀ x, st.indices.getD x none ≠ none →
    st'.lowlink.getD x none = st.lowlink.getD x none
  vidx : st'.indices.getD v none = some st.idx
  imono : st.idx < st'.idx
  fresh : ∀ x ∈ st'.stack, x ∉ st.stack →
    ∃ i, st'.indices.getD x none = some i ∧ st.idx ≤ i
  ucount : unvisitedCount g st' < unvisitedCount g st
  rootp : st'.stack = st.stack ∨ st.stack ≠ []
  vstate : v ∈ st'.stack ∨ (st'.stack = st.stack ∧
    st'.lowlink.getD v none = st'.indices.getD v none)

/-- Postcondition of a completed successor loop of `strongconnect` for the
frame of node `v`. -/
structure TLoopPost (g : DiGraph) (v : Nat) (st st' : TSt) : Prop where
  inv : TInv g st'
  sext : ∃ ext, st'.stack = st.stack ++ ext
  iext : ∀ x i, st.indices.getD x none = some i → st'.indices.getD x none = some i
  lpres : ∀ x, x ≠ v → st.indices.getD x none ≠ none →
    st'.lowlink.getD x none = st.lowlink.getD x none
  imono : st.idx ≤ st'.idx
  fresh : ∀ x ∈ st'.stack, x ∉ st.stack →
    ∃ i, st'.indices.getD x none = some i ∧ st.idx ≤ i
  umono : unvisitedCount g st' ≤ unvisitedCount g st

/-- A list of nodes in which each consecutive pair is a directed edge. -/
def EdgePath (g : DiGraph) (c : List Nat) : Prop :=
  List.Chain' (fun u w => w ∈ g.successors u) c

/-- An elementary cycle as the spec defines it: nonempty, consecutive
edges, a closing edge from the last node back to the first, and no
repeated node. -/
def ElemCycle (g : DiGraph) (c : List Nat) : Prop :=
  c ≠ [] ∧ c.Nodup ∧ EdgePath g c ∧
    ∀ u h, c.getLast? = some u → c.head? = some h → h ∈ g.successors u

/-- Transitive closure of the `blocked_map` dependency links restricted to
blocked targets: `Reach bm bl u x` means the cascading `unblock` started
at `u` can reach `x` by draining dependency sets of blocked nodes. -/
inductive Reach (bm : List (List Nat)) (bl : List Bool) : Nat → Nat → Prop where
  | refl (u : Nat) : Reach bm bl u u
  | step {u y x : Nat} : Reach bm bl u y → x ∈ bm.getD y [] →
      bl.getD x false = true → Reach bm bl u x

/-- Facts about the Johnson state that hold at every reachable state of a
round with start node `s`, capped or not. -/
structure JCore (g : DiGraph) (s : Nat) (st : JSt) : Prop where
  blen : st.blocked.length = g.len
  mlen : st.blocked_map.length = g.len
  snodup : st.stack.Nodup
  sbound : ∀ x ∈ st.stack, x < g.len
  sge : ∀ x ∈ st.stack, s ≤ x
  shead : st.stack ≠ [] → st.stack.head? = some s
  spath : EdgePath g st.stack
  cgood : ∀ c ∈ st.cycles, ElemCycle g c

/-- The additional facts that hold while the cycle cap has not been
reached: every stacked node is blocked, unblocked nodes have empty
dependency sets, and no dependency cascade from a stacked node can reach
a node deeper in the stack. -/
structure JPre (st : JSt) : Prop where
  sblocked : ∀ x ∈ st.stack, st.blocked.getD x false = true
  empt : ∀ u, st.blocked.getD u false = false → st.blocked_map.getD u [] = []
  gstar : ∀ pre a suf, st.stack = pre ++ a :: suf →
    ∀ x, Reach st.blocked_map st.blocked a x → x ∉ pre

/-- The full invariant: the core facts, and the pre-cap facts unless the
cap has been reached. -/
def JGood (g : DiGraph) (s k : Nat) (st : JSt) : Prop :=
  JCore g s st ∧ (k ≤ st.cycles.length ∨ JPre st)

example : enumerate_cycles ⟨[[1, 0], [0]]⟩ 1 20 = some [[0, 1], [0]] := by decide

example : tarjan_scc ⟨[[0]]⟩ = some ⟨[[0]], false, 0⟩ := by decide

example : tarjan_scc ⟨[[1], [2], [0]]⟩ = some ⟨[[2, 1, 0]], true, 1⟩ := by decide

example : tarjan_scc ⟨[[1], [2], []]⟩ = some ⟨[[2], [1], [0]], false, 0⟩ := by decide

example : enumerate_cycles ⟨[[1, 2], [3], [3], [0]]⟩ 100 30 =
    some [[0, 1, 3], [0, 2, 3]] := by decide

example : enumerate_cycles ⟨[[1, 2], [3], [3], [0]]⟩ 2 30 =
    some [[0, 1, 3], [0, 2, 3]] := by decide

example : enumerate_cycles_with_info ⟨[[]]⟩ 0 5 = some ⟨[], true, 0⟩ := by decide

/-- C1: the graph with edges 0→1, 0→0, 1→0 (in that successor order) and
`max_cycles = 1` makes `enumerate_cycles` return two cycles, `[0, 1]` and
`[0]`: after the recursive call from node 0 into node 1 records the cycle
`[0, 1]` and saturates the cap, the parent loop still records the self-loop
`[0]` through its unguarded `w == start` branch. This exceeds the cap of 1,
contradicting the documented contract that at most `max_cycles` cycles are
returned and that exactly `k` cycles are returned when `k` is below the
true total (here T = 2). -/
theorem enumerate_cycles_exceeds_cap :
    enumerate_cycles ⟨[[1, 0], [0]]⟩ 1 20 = some [[0, 1], [0]] ∧
      1 < ([[0, 1], [0]] : List (List Nat)).length ∧
      enumerate_cycles_with_info ⟨[[1, 0], [0]]⟩ 1 20 =
        some ⟨[[0, 1], [0]], true, 2⟩ := by
  refine ⟨by decide, by decide, by decide⟩

/-- C2 counterexample: on the one-node edgeless graph with
`max_cycles = 0`, `enumerate_cycles_with_info` returns `truncated = true`
(because `truncated` is `count >= max_cycles` and `0 >= 0` holds), not
`truncated = false` as the claim states. -/
theorem enumerate_cycles_with_info_zero_cap_cex :
    enumerate_cycles_with_info ⟨[[]]⟩ 0 5 = some ⟨[], true, 0⟩ ∧
      (true : Bool) ≠ false := by
  refine ⟨by decide, by decide⟩

/-- C2 amended: with `max_cycles = 0` the result is empty with `count = 0`
but `truncated = true` (since `truncated` is `count >= max_cycles`); on the
empty graph with any `max_cycles ≥ 1` the result is empty with `count = 0`
and `truncated = false`. -/
theorem enumerate_cycles_with_info_zero_cap_or_empty :
    (∀ (g : DiGraph) (fuel : Nat),
        enumerate_cycles_with_info g 0 fuel = some ⟨[], true, 0⟩) ∧
      (∀ (k fuel : Nat), 1 ≤ k →
        enumerate_cycles_with_info ⟨[]⟩ k fuel = some ⟨[], false, 0⟩) := by
  constructor
  · intro g fuel
    simp [enumerate_cycles_with_info, enumerate_cycles]
  · intro k fuel hk
    have hlen : DiGraph.len ⟨[]⟩ = 0 := rfl
    simp [enumerate_cycles_with_info, enumerate_cycles, hlen]
    omega

/-- C2 witness: the amended theorem applied at the one-node graph with
`max_cycles = 0` and at the empty graph with `max_cycles = 2`. -/
theorem enumerate_cycles_with_info_zero_cap_or_empty_witness :
    enumerate_cycles_with_info ⟨[[]]⟩ 0 7 = some ⟨[], true, 0⟩ ∧
      enumerate_cycles_with_info ⟨[]⟩ 2 7 = some ⟨[], false, 0⟩ :=
  ⟨enumerate_cycles_with_info_zero_cap_or_empty.1 ⟨[[]]⟩ 7,
   enumerate_cycles_with_info_zero_cap_or_empty.2 2 7 (by decide)⟩

/-- C6: on the one-node graph with a self-loop (and on the two-node graph
where each node has only a self-loop), `tarjan_scc` returns only singleton
components and reports `has_cycles = false` and `cycle_count = 0`, even
though each self-loop edge is a cycle of length 1. -/
theorem tarjan_scc_self_loop_singleton :
    tarjan_scc ⟨[[0]]⟩ = some ⟨[[0]], false, 0⟩ ∧
      tarjan_scc ⟨[[0], [1]]⟩ = some ⟨[[0], [1]], false, 0⟩ := by
  refine ⟨by decide, by decide⟩

theorem stkok_headmin {start : Nat} {stk : List Nat} (h : StkOk start stk) :
    HeadMin stk := by
  obtain ⟨hall, hhd⟩ := h
  cases stk with
  | nil => simp at hhd
  | cons a t =>
    simp [List.head?] at hhd
    exact ⟨a, t, by simp [hhd], by simpa [hhd] using hall⟩


theorem circuitLoop_headmin (recur : Nat → JSt → Option (JSt × Bool))
    (start maxCy : Nat)
    (hrec : ∀ w st r f, start ≤ w → CycGood st.cycles → StkOk start st.stack →
      recur w st = some (r, f) → CycGood r.cycles ∧ r.stack = st.stack) :
    ∀ (ws : List Nat) (st : JSt) (found : Bool) (res : JSt × Bool × Bool),
      CycGood st.cycles → StkOk start st.stack →
      circuitLoop recur start maxCy start ws st found = some res →
      CycGood res.1.cycles ∧
        res.1.stack = (if res.2.2 then st.stack.dropLast else st.stack) := by
  intro ws
  induction ws with
  | nil =>
    intro st found res hc hs h
    simp only [circuitLoop] at h
    obtain rfl := Option.some.inj h
    simpa using hc
  | cons w rest ih =>
    intro st found res hc hs h
    simp only [circuitLoop] at h
    split at h
    · exact ih st found res hc hs h
    · have hcnew : CycGood (st.cycles ++ [st.stack]) := by
        intro c hcmem
        rcases List.mem_append.mp hcmem with hin | hin
        · exact hc c hin
        · simp at hin
          subst hin
          exact stkok_headmin hs
      split at h
      · split at h
        · obtain rfl := Option.some.inj h
          exact ⟨hcnew, by simp⟩
        · exact ih { st with cycles := st.cycles ++ [st.stack] } true res hcnew hs h
      · split at h
        · exact ih st found res hc hs h
        · split at h
          · exact absurd h (by simp)
          · rename_i st1 f hrw
            have hstep := hrec w st st1 f (by omega) hc hs hrw
            obtain ⟨hc1, hstk1⟩ := hstep
            have := ih st1 (found || f) res hc1 (by rw [hstk1]; exact hs) h
            rw [hstk1] at this
            exact this

theorem circuit_headmin : ∀ (fuel : Nat) (g : DiGraph) (start maxCy v : Nat)
    (st : JSt) (r : JSt) (f : Bool),
    start ≤ v →
    CycGood st.cycles →
    (∀ x ∈ st.stack, start ≤ x) →
    (st.stack = [] → v = start) →
    (st.stack ≠ [] → st.stack.head? = some start) →
    circuit g start maxCy start fuel v st = some (r, f) →
    CycGood r.cycles ∧ r.stack = st.stack := by
  intro fuel
  induction fuel with
  | zero => intro g start maxCy v st r f _ _ _ _ _ h; simp [circuit] at h
  | succ fuel ih =>
    intro g start maxCy v st r f hv hc hall hemp hne h
    simp only [circuit] at h
    split at h
    · obtain ⟨h1, _⟩ := Prod.mk.injEq .. ▸ Option.some.inj h
      subst h1
      exact ⟨hc, rfl⟩
    · have hstk1 : StkOk start (st.stack ++ [v]) := by
        constructor
        · intro x hx
          rcases List.mem_append.mp hx with hx | hx
          · exact hall x hx
          · simp at hx; omega
        · cases hst : st.stack with
          | nil => simp [hst, hemp hst]
          | cons a t =>
            have := hne (by simp [hst])
            simp [hst] at this ⊢
            exact this
      have hrec : ∀ w stw rw fw, start ≤ w → CycGood stw.cycles → StkOk start stw.stack →
          circuit g start maxCy start fuel w stw = some (rw, fw) →
          CycGood rw.cycles ∧ rw.stack = stw.stack := by
        intro w stw rw fw hw hcw hsw hcall
        refine ih g start maxCy w stw rw fw hw hcw hsw.1 ?_ (fun _ => hsw.2) hcall
        intro hnil
        rw [hnil] at hsw
        simp [StkOk] at hsw
      split at h
      · exact absurd h (by simp)
      · rename_i st2 found hloop
        have hres := circuitLoop_headmin _ start maxCy hrec (g.successors v)
          { st with stack := st.stack ++ [v], blocked := st.blocked.set v true }
          false (st2, found, true) hc hstk1 hloop
        obtain ⟨hc2, hstk2⟩ := hres
        obtain ⟨h1, _⟩ := Prod.mk.injEq .. ▸ Option.some.inj h
        subst h1
        refine ⟨hc2, ?_⟩
        simp at hstk2
        simp [hstk2]
      · rename_i st2 found hloop
        have hres := circuitLoop_headmin _ start maxCy hrec (g.successors v)
          { st with stack := st.stack ++ [v], blocked := st.blocked.set v true }
          false (st2, found, false) hc hstk1 hloop
        obtain ⟨hc2, hstk2⟩ := hres
        simp at hstk2
        split at h
        · split at h
          · exact absurd h (by simp)
          · rename_i bl bm hub
            obtain ⟨h1, _⟩ := Prod.mk.injEq .. ▸ Option.some.inj h
            subst h1
            refine ⟨hc2, ?_⟩
            simp only []
            rw [hstk2]
            simp
        · obtain ⟨h1, _⟩ := Prod.mk.injEq .. ▸ Option.some.inj h
          subst h1
          refine ⟨hc2, ?_⟩
          simp only []
          rw [hstk2]
          simp

theorem enumRounds_headmin (g : DiGraph) (maxCy fuel : Nat) :
    ∀ (starts : List Nat) (st : JSt) (r : JSt),
      CycGood st.cycles → st.stack = [] →
      enumRounds g maxCy fuel starts st = some r →
      CycGood r.cycles := by
  intro starts
  induction starts with
  | nil =>
    intro st r hc hstk h
    simp only [enumRounds] at h
    obtain rfl := Option.some.inj h
    exact hc
  | cons s rest ih =>
    intro st r hc hstk h
    simp only [enumRounds] at h
    split at h
    · obtain rfl := Option.some.inj h
      exact hc
    · split at h
      · exact absurd h (by simp)
      · rename_i st2 f hcirc
        have hpost := circuit_headmin fuel g s maxCy s
          { st with blocked := List.replicate g.len false,
                    blocked_map := List.replicate g.len [] }
          st2 f (Nat.le_refl s) hc (by simp [hstk]) (fun _ => rfl)
          (by intro hne; exact absurd hstk (by simpa using hne)) hcirc
        exact ih st2 r hpost.1 (by simpa [hstk] using hpost.2) h

/-- C10: every cycle returned by `enumerate_cycles` is nonempty and begins
with a node index that is a lower bound of all the node indices in the
cycle, i.e. the first element is the minimum: the search from start `s`
only ever visits nodes `≥ s` and `s` is at the bottom of the path stack. -/
theorem enumerate_cycles_head_is_min (g : DiGraph) (maxCy fuel : Nat)
    (r : List (List Nat)) (h : enumerate_cycles g maxCy fuel = some r) :
    ∀ c ∈ r, ∃ hd t, c = hd :: t ∧ ∀ x ∈ c, hd ≤ x := by
  have hr : CycGood r := by
    simp only [enumerate_cycles] at h
    split at h
    · obtain rfl := Option.some.inj h
      intro c hcmem
      exact absurd hcmem (by simp)
    · split at h
      · exact absurd h (by simp)
      · rename_i st hrounds
        obtain rfl := Option.some.inj h
        exact enumRounds_headmin g maxCy fuel (List.range g.len) _ st
          (by intro c hcm; exact absurd hcm (by simp)) rfl hrounds
  exact hr

/-- C10 witness: the theorem applied to the diamond graph and its first
returned cycle `[0, 1, 3]`, which indeed starts at its minimum. -/
theorem enumerate_cycles_head_is_min_witness :
    ∃ hd t, ([0, 1, 3] : List Nat) = hd :: t ∧ ∀ x ∈ ([0, 1, 3] : List Nat), hd ≤ x :=
  enumerate_cycles_head_is_min ⟨[[1, 2], [3], [3], [0]]⟩ 100 30
    [[0, 1, 3], [0, 2, 3]] (by decide) [0, 1, 3] (by decide)

theorem unblockGo_congr (rec1 rec2 : Nat → List Bool → List (List Nat) →
      Option (List Bool × List (List Nat)))
    (hr : ∀ w bl bm r, rec1 w bl bm = some r → rec2 w bl bm = some r) :
    ∀ (ws : List Nat) (bl : List Bool) (bm : List (List Nat)) r,
      unblockGo rec1 ws bl bm = some r → unblockGo rec2 ws bl bm = some r := by
  intro ws
  induction ws with
  | nil => intro bl bm r h; simpa [unblockGo] using h
  | cons w rest ih =>
    intro bl bm r h
    simp only [unblockGo] at h ⊢
    split at h
    · rename_i hb
      rw [if_pos hb]
      split at h
      · exact absurd h (by simp)
      · rename_i bl2 bm2 hrw
        rw [hr w bl bm (bl2, bm2) hrw]
        exact ih bl2 bm2 r h
    · rename_i hb
      rw [if_neg hb]
      exact ih bl bm r h

theorem unblock_mono : ∀ (f1 f2 u : Nat) (bl : List Bool) (bm : List (List Nat)) r,
    f1 ≤ f2 → unblock f1 u bl bm = some r → unblock f2 u bl bm = some r := by
  intro f1
  induction f1 with
  | zero => intro f2 u bl bm r _ h; simp [unblock] at h
  | succ f ih =>
    intro f2 u bl bm r hle h
    cases f2 with
    | zero => omega
    | succ f2' =>
      simp only [unblock] at h ⊢
      exact unblockGo_congr _ _
        (fun w bl' bm' r' hw => ih f2' w bl' bm' r' (by omega) hw) _ _ _ _ h

theorem circuitLoop_congr (rec1 rec2 : Nat → JSt → Option (JSt × Bool))
    (start maxCy minNode : Nat)
    (hr : ∀ w st r, rec1 w st = some r → rec2 w st = some r) :
    ∀ (ws : List Nat) (st : JSt) (found : Bool) res,
      circuitLoop rec1 start maxCy minNode ws st found = some res →
      circuitLoop rec2 start maxCy minNode ws st found = some res := by
  intro ws
  induction ws with
  | nil => intro st found res h; simpa [circuitLoop] using h
  | cons w rest ih =>
    intro st found res h
    simp only [circuitLoop] at h ⊢
    split at h
    · rename_i hc
      rw [if_pos hc]
      exact ih st found res h
    · rename_i hc
      rw [if_neg hc]
      split at h
      · rename_i hw
        rw [if_pos hw]
        split at h
        · rename_i hcap
          rw [if_pos hcap]
          exact h
        · rename_i hcap
          rw [if_neg hcap]
          exact ih _ true res h
      · rename_i hw
        rw [if_neg hw]
        split at h
        · rename_i hb
          rw [if_pos hb]
          exact ih st found res h
        · rename_i hb
          rw [if_neg hb]
          split at h
          · exact absurd h (by simp)
          · rename_i st1 f hrw
            rw [hr w st (st1, f) hrw]
            exact ih st1 (found || f) res h

theorem circuit_mono : ∀ (f1 f2 : Nat) (g : DiGraph) (start maxCy minNode v : Nat)
    (st : JSt) r, f1 ≤ f2 →
    circuit g start maxCy minNode f1 v st = some r →
    circuit g start maxCy minNode f2 v st = some r := by
  intro f1
  induction f1 with
  | zero => intro f2 g start maxCy minNode v st r _ h; simp [circuit] at h
  | succ f ih =>
    intro f2 g start maxCy minNode v st r hle h
    cases f2 with
    | zero => omega
    | succ f2' =>
      simp only [circuit] at h ⊢
      split at h
      · rename_i hcap
        rw [if_pos hcap]
        exact h
      · rename_i hcap
        rw [if_neg hcap]
        split at h
        · exact absurd h (by simp)
        · rename_i st2 found hloop
          have hloop2 := circuitLoop_congr _ _ start maxCy minNode
            (fun w stw rw hw => ih f2' g start maxCy minNode w stw rw (by omega) hw)
            _ _ _ _ hloop
          rw [hloop2]
          exact h
        · rename_i st2 found hloop
          have hloop2 := circuitLoop_congr _ _ start maxCy minNode
            (fun w stw rw hw => ih f2' g start maxCy minNode w stw rw (by omega) hw)
            _ _ _ _ hloop
          rw [hloop2]
          cases found with
          | true =>
            rw [if_pos rfl] at h
            split at h
            · exact absurd h (by simp)
            · rename_i bl bm hub
              have hub2 := unblock_mono f f2' v st2.blocked st2.blocked_map (bl, bm)
                (by omega) hub
              simp only [hub2]
              exact h
          | false =>
            rw [if_neg (by simp)] at h
            exact h

theorem enumRounds_mono (g : DiGraph) (maxCy : Nat) :
    ∀ (starts : List Nat) (f1 f2 : Nat) (st : JSt) r, f1 ≤ f2 →
      enumRounds g maxCy f1 starts st = some r →
      enumRounds g maxCy f2 starts st = some r := by
  intro starts
  induction starts with
  | nil => intro f1 f2 st r _ h; simpa [enumRounds] using h
  | cons s rest ih =>
    intro f1 f2 st r hle h
    simp only [enumRounds] at h ⊢
    split at h
    · rename_i hcap
      rw [if_pos hcap]
      exact h
    · rename_i hcap
      rw [if_neg hcap]
      split at h
      · exact absurd h (by simp)
      · rename_i st2 f hcirc
        rw [circuit_mono f1 f2 g s maxCy s s _ (st2, f) hle hcirc]
        exact ih f1 f2 st2 r hle h

theorem enumerate_cycles_mono (g : DiGraph) (maxCy : Nat) (f1 f2 : Nat)
    (r : List (List Nat)) (hle : f1 ≤ f2)
    (h : enumerate_cycles g maxCy f1 = some r) :
    enumerate_cycles g maxCy f2 = some r := by
  simp only [enumerate_cycles] at h ⊢
  split at h
  · rename_i hz
    rw [if_pos hz]
    exact h
  · rename_i hz
    rw [if_neg hz]
    split at h
    · exact absurd h (by simp)
    · rename_i st hrounds
      rw [enumRounds_mono g maxCy (List.range g.len) f1 f2 _ st hle hrounds]
      exact h

theorem circuitLoop_cycles_extend (rec : Nat → JSt → Option (JSt × Bool))
    (start maxCy minNode : Nat)
    (hr : ∀ w st res, rec w st = some res → ∃ new, res.1.cycles = st.cycles ++ new) :
    ∀ (ws : List Nat) (st : JSt) (found : Bool) (res : JSt × Bool × Bool),
      circuitLoop rec start maxCy minNode ws st found = some res →
      ∃ new, res.1.cycles = st.cycles ++ new := by
  intro ws
  induction ws with
  | nil =>
    intro st found res h
    simp only [circuitLoop] at h
    obtain rfl := Option.some.inj h
    exact ⟨[], by simp⟩
  | cons w rest ih =>
    intro st found res h
    simp only [circuitLoop] at h
    split at h
    · exact ih st found res h
    · split at h
      · split at h
        · obtain rfl := Option.some.inj h
          exact ⟨[st.stack], rfl⟩
        · obtain ⟨new, hnew⟩ := ih _ true res h
          exact ⟨[st.stack] ++ new, by rw [hnew]; simp⟩
      · split at h
        · exact ih st found res h
        · split at h
          · exact absurd h (by simp)
          · rename_i st1 f hrw
            obtain ⟨n1, h1⟩ := hr w st (st1, f) hrw
            have h1' : st1.cycles = st.cycles ++ n1 := h1
            obtain ⟨n2, h2⟩ := ih st1 (found || f) res h
            exact ⟨n1 ++ n2, by rw [h2, h1']; simp⟩

theorem circuit_cycles_extend : ∀ (fuel : Nat) (g : DiGraph)
    (start maxCy minNode v : Nat) (st : JSt) (res : JSt × Bool),
    circuit g start maxCy minNode fuel v st = some res →
    ∃ new, res.1.cycles = st.cycles ++ new := by
  intro fuel
  induction fuel with
  | zero => intro g start maxCy minNode v st res h; simp [circuit] at h
  | succ fuel ih =>
    intro g start maxCy minNode v st res h
    simp only [circuit] at h
    split at h
    · obtain rfl := Option.some.inj h
      exact ⟨[], by simp⟩
    · split at h
      · exact absurd h (by simp)
      · rename_i st2 found hloop
        obtain rfl := Option.some.inj h
        have hext := circuitLoop_cycles_extend _ start maxCy minNode
          (fun w stw resw hw => ih g start maxCy minNode w stw resw hw)
          (g.successors v) _ false (st2, found, true) hloop
        simpa using hext
      · rename_i st2 found hloop
        have hext := circuitLoop_cycles_extend _ start maxCy minNode
          (fun w stw resw hw => ih g start maxCy minNode w stw resw hw)
          (g.successors v) _ false (st2, found, false) hloop
        have hext' : ∃ new, st2.cycles = st.cycles ++ new := by simpa using hext
        split at h
        · split at h
          · exact absurd h (by simp)
          · rename_i bl bm hub
            obtain rfl := Option.some.inj h
            simpa using hext'
        · obtain rfl := Option.some.inj h
          simpa using hext'

theorem circuitLoop_early_cap (rec : Nat → JSt → Option (JSt × Bool))
    (start maxCy minNode : Nat) :
    ∀ (ws : List Nat) (st : JSt) (found : Bool) (res : JSt × Bool × Bool),
      circuitLoop rec start maxCy minNode ws st found = some res →
      res.2.2 = true → maxCy ≤ res.1.cycles.length := by
  intro ws
  induction ws with
  | nil =>
    intro st found res h he
    simp only [circuitLoop] at h
    obtain rfl := Option.some.inj h
    simp at he
  | cons w rest ih =>
    intro st found res h he
    simp only [circuitLoop] at h
    split at h
    · exact ih st found res h he
    · split at h
      · split at h
        · rename_i hcap
          obtain rfl := Option.some.inj h
          exact hcap
        · exact ih _ true res h he
      · split at h
        · exact ih st found res h he
        · split at h
          · exact absurd h (by simp)
          · rename_i st1 f hrw
            exact ih st1 (found || f) res h he

theorem circuitLoop_cap_stable (rec1 rec2 : Nat → JSt → Option (JSt × Bool))
    (start k1 k2 minNode : Nat) (hk : k1 ≤ k2)
    (hr : ∀ w st res, rec1 w st = some res → res.1.cycles.length < k1 →
      rec2 w st = some res)
    (hext : ∀ w st res, rec1 w st = some res → ∃ new, res.1.cycles = st.cycles ++ new) :
    ∀ (ws : List Nat) (st : JSt) (found : Bool) (res : JSt × Bool × Bool),
      circuitLoop rec1 start k1 minNode ws st found = some res →
      res.1.cycles.length < k1 →
      circuitLoop rec2 start k2 minNode ws st found = some res := by
  intro ws
  induction ws with
  | nil =>
    intro st found res h hlen
    simpa [circuitLoop] using h
  | cons w rest ih =>
    intro st found res h hlen
    simp only [circuitLoop] at h ⊢
    split at h
    · rename_i hlt
      rw [if_pos hlt]
      exact ih st found res h hlen
    · rename_i hlt
      rw [if_neg hlt]
      split at h
      · rename_i hw
        rw [if_pos hw]
        split at h
        · rename_i hcap
          obtain rfl := Option.some.inj h
          exfalso
          simp at hlen hcap
          omega
        · rename_i hcap
          have hc1 : st.cycles.length + 1 < k1 := by
            simp at hcap
            omega
          rw [if_neg (by simp; omega)]
          exact ih _ true res h hlen
      · rename_i hw
        rw [if_neg hw]
        split at h
        · rename_i hb
          rw [if_pos hb]
          exact ih st found res h hlen
        · rename_i hb
          rw [if_neg hb]
          split at h
          · exact absurd h (by simp)
          · rename_i st1 f hrw
            obtain ⟨new, hnew⟩ := circuitLoop_cycles_extend rec1 start k1 minNode hext
              rest st1 (found || f) res h
            have hlt1 : st1.cycles.length < k1 := by
              rw [hnew] at hlen
              simp at hlen
              omega
            rw [hr w st (st1, f) hrw hlt1]
            exact ih st1 (found || f) res h hlen

theorem circuit_cap_stable : ∀ (fuel : Nat) (g : DiGraph)
    (start k1 k2 minNode v : Nat) (st : JSt) (res : JSt × Bool),
    k1 ≤ k2 →
    circuit g start k1 minNode fuel v st = some res →
    res.1.cycles.length < k1 →
    circuit g start k2 minNode fuel v st = some res := by
  intro fuel
  induction fuel with
  | zero => intro g start k1 k2 minNode v st res _ h _; simp [circuit] at h
  | succ fuel ih =>
    intro g start k1 k2 minNode v st res hk h hlen
    simp only [circuit] at h ⊢
    split at h
    · rename_i hcap
      obtain rfl := Option.some.inj h
      exfalso
      have hlen' : st.cycles.length < k1 := hlen
      omega
    · rename_i hcap
      rw [if_neg (show ¬ k2 ≤ st.cycles.length by omega)]
      split at h
      · exact absurd h (by simp)
      · rename_i st2 found hloop
        obtain rfl := Option.some.inj h
        have hge := circuitLoop_early_cap _ start k1 minNode (g.successors v) _ false
          (st2, found, true) hloop rfl
        exfalso
        have hge' : k1 ≤ st2.cycles.length := hge
        have hlen' : st2.cycles.length < k1 := hlen
        omega
      · rename_i st2 found hloop
        have hrs : ∀ w stw resw,
            circuit g start k1 minNode fuel w stw = some resw →
            resw.1.cycles.length < k1 →
            circuit g start k2 minNode fuel w stw = some resw :=
          fun w stw resw hw hlw => ih g start k1 k2 minNode w stw resw hk hw hlw
        have hes : ∀ w stw resw,
            circuit g start k1 minNode fuel w stw = some resw →
            ∃ new, resw.1.cycles = stw.cycles ++ new :=
          fun w stw resw hw => circuit_cycles_extend fuel g start k1 minNode w stw resw hw
        cases found with
        | true =>
          rw [if_pos rfl] at h
          split at h
          · exact absurd h (by simp)
          · rename_i bl bm hub
            obtain rfl := Option.some.inj h
            have hlen2 : st2.cycles.length < k1 := hlen
            have hloop2 := circuitLoop_cap_stable _ _ start k1 k2 minNode hk hrs hes
              (g.successors v) _ false (st2, true, false) hloop hlen2
            rw [hloop2]
            simp [hub]
        | false =>
          rw [if_neg (by simp)] at h
          obtain rfl := Option.some.inj h
          have hlen2 : st2.cycles.length < k1 := hlen
          have hloop2 := circuitLoop_cap_stable _ _ start k1 k2 minNode hk hrs hes
            (g.successors v) _ false (st2, false, false) hloop hlen2
          rw [hloop2]
          simp

theorem enumRounds_cycles_extend (g : DiGraph) (maxCy fuel : Nat) :
    ∀ (starts : List Nat) (st : JSt) (r : JSt),
      enumRounds g maxCy fuel starts st = some r →
      ∃ new, r.cycles = st.cycles ++ new := by
  intro starts
  induction starts with
  | nil =>
    intro st r h
    simp only [enumRounds] at h
    obtain rfl := Option.some.inj h
    exact ⟨[], by simp⟩
  | cons s rest ih =>
    intro st r h
    simp only [enumRounds] at h
    split at h
    · obtain rfl := Option.some.inj h
      exact ⟨[], by simp⟩
    · split at h
      · exact absurd h (by simp)
      · rename_i st2 f hcirc
        obtain ⟨n1, h1⟩ := circuit_cycles_extend fuel g s maxCy s s _ (st2, f) hcirc
        have h1' : st2.cycles = st.cycles ++ n1 := h1
        obtain ⟨n2, h2⟩ := ih st2 r h
        exact ⟨n1 ++ n2, by rw [h2, h1']; simp⟩

theorem enumRounds_cap_stable (g : DiGraph) (fuel k1 k2 : Nat) (hk : k1 ≤ k2) :
    ∀ (starts : List Nat) (st : JSt) (r : JSt),
      enumRounds g k1 fuel starts st = some r →
      r.cycles.length < k1 →
      enumRounds g k2 fuel starts st = some r := by
  intro starts
  induction starts with
  | nil =>
    intro st r h _
    simpa [enumRounds] using h
  | cons s rest ih =>
    intro st r h hlen
    simp only [enumRounds] at h ⊢
    split at h
    · rename_i hcap
      obtain rfl := Option.some.inj h
      omega
    · rename_i hcap
      rw [if_neg (show ¬ k2 ≤ st.cycles.length by omega)]
      split at h
      · exact absurd h (by simp)
      · rename_i st2 f hcirc
        obtain ⟨new, hnew⟩ := enumRounds_cycles_extend g k1 fuel rest st2 r h
        have hlt2 : st2.cycles.length < k1 := by
          rw [hnew] at hlen
          simp at hlen
          omega
        have hcirc2 := circuit_cap_stable fuel g s k1 k2 s s _ (st2, f) hk hcirc hlt2
        rw [hcirc2]
        exact ih st2 r h hlen

theorem enumerate_cycles_cap_stable (g : DiGraph) (k1 k2 fuel : Nat)
    (r : List (List Nat)) (hk : k1 ≤ k2)
    (h : enumerate_cycles g k1 fuel = some r) (hlen : r.length < k1) :
    enumerate_cycles g k2 fuel = some r := by
  simp only [enumerate_cycles] at h ⊢
  split at h
  · rename_i hz
    obtain rfl := Option.some.inj h
    rcases hz with hz | hz
    · rw [if_pos (Or.inl hz)]
    · omega
  · rename_i hz
    push_neg at hz
    rw [if_neg (by push_neg; exact ⟨hz.1, by omega⟩)]
    split at h
    · exact absurd h (by simp)
    · rename_i st hrounds
      obtain rfl := Option.some.inj h
      rw [enumRounds_cap_stable g fuel k1 k2 hk (List.range g.len) _ st hrounds hlen]

/-- C8: on the diamond graph with nodes `a, b, c, d = 0, 1, 2, 3` and edges
`a→b, a→c, b→d, c→d, d→a`, `enumerate_cycles` with any cap `k ≥ 2` (and any
sufficient fuel) returns exactly the two cycles `[a, b, d]` and `[a, c, d]`,
i.e. `[[0, 1, 3], [0, 2, 3]]` as index sequences, in that order. -/
theorem enumerate_cycles_diamond (k fuel : Nat) (hk : 2 ≤ k) (hf : 30 ≤ fuel) :
    enumerate_cycles ⟨[[1, 2], [3], [3], [0]]⟩ k fuel = some [[0, 1, 3], [0, 2, 3]] := by
  rcases Nat.lt_or_ge k 3 with h3 | h3
  · have hk2 : k = 2 := by omega
    subst hk2
    exact enumerate_cycles_mono _ 2 30 fuel _ hf (by decide)
  · have hstab := enumerate_cycles_cap_stable ⟨[[1, 2], [3], [3], [0]]⟩ 3 k 30
      [[0, 1, 3], [0, 2, 3]] h3 (by decide) (by decide)
    exact enumerate_cycles_mono _ k 30 fuel _ hf hstab

/-- C8 witness: the theorem applied at cap 2 and fuel 30. -/
theorem enumerate_cycles_diamond_witness :
    enumerate_cycles ⟨[[1, 2], [3], [3], [0]]⟩ 2 30 = some [[0, 1, 3], [0, 2, 3]] :=
  enumerate_cycles_diamond 2 30 (by decide) (by decide)

theorem getD_set_self {α : Type} (l : List α) (i : Nat) (x d : α) (h : i < l.length) :
    (l.set i x).getD i d = x := by
  simp [List.getD, List.getElem?_set_self h]

theorem getD_set_ne {α : Type} (l : List α) (i j : Nat) (x d : α) (h : i ≠ j) :
    (l.set i x).getD j d = l.getD j d := by
  simp [List.getD, List.getElem?_set_ne h]

theorem getD_replicate_lt {α : Type} (n i : Nat) (a d : α) (h : i < n) :
    (List.replicate n a).getD i d = a := by
  simp [List.getD, List.getElem?_replicate, h]

theorem getD_of_len_le {α : Type} (l : List α) (i : Nat) (d : α) (h : l.length ≤ i) :
    l.getD i d = d := by
  simp [List.getD, List.getElem?_eq_none h]

theorem popSplit_append (v : Nat) (A B : List Nat) (hA : v ∉ A) :
    popSplit v (A ++ v :: B) = some (A ++ [v], B) := by
  induction A with
  | nil => simp [popSplit]
  | cons a A ih =>
    have hav : ¬(a = v) := by
      intro hh
      exact hA (by simp [hh])
    have hA' : v ∉ A := fun hh => hA (by simp [hh])
    simp only [List.cons_append, popSplit, if_neg hav]
    rw [show List.append A (v :: B) = A ++ v :: B from rfl, ih hA']

theorem foldl_set_false_getD (comp : List Nat) :
    ∀ (os : List Bool) (x : Nat),
      ((comp.foldl (fun os w => os.set w false) os).getD x false) =
        (if x ∈ comp then false else os.getD x false) := by
  induction comp with
  | nil => intro os x; simp
  | cons c comp ih =>
    intro os x
    simp only [List.foldl_cons, ih (os.set c false) x]
    by_cases hx : x ∈ comp
    · simp [hx]
    · rw [if_neg hx]
      by_cases hxc : x = c
      · subst hxc
        rw [if_pos (by simp)]
        by_cases hlt : x < os.length
        · exact getD_set_self os x false false hlt
        · rw [getD_of_len_le (os.set x false) x false (by rw [List.length_set]; omega)]
      · rw [if_neg (by simp [hxc, hx]), getD_set_ne os c x false false (fun hh => hxc hh.symm)]

theorem foldl_set_false_length (comp : List Nat) :
    ∀ (os : List Bool), (comp.foldl (fun os w => os.set w false) os).length = os.length := by
  induction comp with
  | nil => intro os; rfl
  | cons c comp ih => intro os; simp [List.foldl_cons, ih, List.length_set]

theorem getD_replicate_none (n v : Nat) :
    (List.replicate n (none : Option Nat)).getD v none = none := by
  by_cases hv : v < n
  · exact getD_replicate_lt n v none none hv
  · exact getD_of_len_le _ v none (by simpa [List.length_replicate, Nat.not_lt] using hv)

theorem tarjanInit_inv (g : DiGraph) : TInv g (tarjanInit g.len) := by
  constructor <;> simp [tarjanInit, getD_replicate_none]

theorem filter_length_mono (p q : Nat → Bool) :
    ∀ (l : List Nat), (∀ a ∈ l, p a = true → q a = true) →
      (l.filter p).length ≤ (l.filter q).length := by
  intro l
  induction l with
  | nil => intro _; simp
  | cons a l ih =>
    intro h
    have hl := ih (fun b hb => h b (by simp [hb]))
    by_cases hp : p a = true
    · have hq := h a (by simp) hp
      simp [List.filter_cons, hp, hq]
      omega
    · simp only [List.filter_cons, Bool.not_eq_true] at hp ⊢
      rw [hp]
      by_cases hq : q a = true
      · simp [hq]
        omega
      · simp only [Bool.not_eq_true] at hq
        rw [hq]
        simpa using hl

theorem filter_length_strict (p q : Nat → Bool) :
    ∀ (l : List Nat), (∀ a ∈ l, p a = true → q a = true) →
      ∀ v ∈ l, q v = true → p v = false →
      (l.filter p).length < (l.filter q).length := by
  intro l
  induction l with
  | nil => intro _ v hv; simp at hv
  | cons a l ih =>
    intro h v hv hq hp
    have hmono := filter_length_mono p q l (fun b hb => h b (by simp [hb]))
    rcases List.mem_cons.mp hv with rfl | hv'
    · simp [List.filter_cons, hp, hq]
      omega
    · have hlt := ih (fun b hb => h b (by simp [hb])) v hv' hq hp
      by_cases hpa : p a = true
      · have hqa := h a (by simp) hpa
        simp [List.filter_cons, hpa, hqa]
        omega
      · simp only [Bool.not_eq_true] at hpa
        simp only [List.filter_cons, hpa]
        by_cases hqa : q a = true
        · simp [hqa]
          omega
        · simp only [Bool.not_eq_true] at hqa
          rw [hqa]
          simpa using hlt

theorem ucount_le_of_iext (g : DiGraph) (st st' : TSt)
    (h : ∀ x i, st.indices.getD x none = some i → st'.indices.getD x none = some i) :
    unvisitedCount g st' ≤ unvisitedCount g st := by
  apply filter_length_mono
  intro a _ hp
  simp only [Option.isNone_iff_eq_none] at hp ⊢
  by_contra hne
  obtain ⟨i, hi⟩ := Option.ne_none_iff_exists'.mp hne
  rw [h a i hi] at hp
  simp at hp

theorem ucount_lt_of_newvisit (g : DiGraph) (st st' : TSt)
    (h : ∀ x i, st.indices.getD x none = some i → st'.indices.getD x none = some i)
    (v : Nat) (hv : v < g.len) (hnone : st.indices.getD v none = none)
    (hsome : st'.indices.getD v none ≠ none) :
    unvisitedCount g st' < unvisitedCount g st := by
  apply filter_length_strict
  · intro a _ hp
    simp only [Option.isNone_iff_eq_none] at hp ⊢
    by_contra hne
    obtain ⟨i, hi⟩ := Option.ne_none_iff_exists'.mp hne
    rw [h a i hi] at hp
    simp at hp
  · exact List.mem_range.mpr hv
  · rw [hnone]
    rfl
  · cases hx : st'.indices.getD v none with
    | none => exact absurd hx hsome
    | some i => rfl

theorem ucount_pos (g : DiGraph) (st : TSt) (v : Nat) (hv : v < g.len)
    (hnone : st.indices.getD v none = none) : 1 ≤ unvisitedCount g st := by
  have hmem : v ∈ (List.range g.len).filter (fun x => (st.indices.getD x none).isNone) :=
    List.mem_filter.mpr ⟨List.mem_range.mpr hv, by rw [hnone]; rfl⟩
  have := List.length_pos.mpr (List.ne_nil_of_mem hmem)
  exact this

theorem TLoopPost_trans (g : DiGraph) (v : Nat) (st stM st' : TSt)
    (h1 : TLoopPost g v st stM) (h2 : TLoopPost g v stM st') :
    TLoopPost g v st st' := by
  refine ⟨h2.inv, ?_, ?_, ?_, ?_, ?_, ?_⟩
  · obtain ⟨e1, he1⟩ := h1.sext
    obtain ⟨e2, he2⟩ := h2.sext
    exact ⟨e1 ++ e2, by rw [he2, he1, List.append_assoc]⟩
  · intro x i hx
    exact h2.iext x i (h1.iext x i hx)
  · intro x hxv hvis
    rw [h2.lpres x hxv, h1.lpres x hxv hvis]
    intro hnone
    obtain ⟨i, hi⟩ := Option.ne_none_iff_exists'.mp hvis
    rw [h1.iext x i hi] at hnone
    simp at hnone
  · exact Nat.le_trans h1.imono h2.imono
  · intro x hx hnx
    by_cases hxm : x ∈ stM.stack
    · obtain ⟨i, hi, hle⟩ := h1.fresh x hxm hnx
      exact ⟨i, h2.iext x i hi, hle⟩
    · obtain ⟨i, hi, hle⟩ := h2.fresh x hx hxm
      exact ⟨i, hi, Nat.le_trans h1.imono hle⟩
  · exact Nat.le_trans h2.umono h1.umono

theorem TLoopPost_refl (g : DiGraph) (v : Nat) (st : TSt) (hinv : TInv g st) :
    TLoopPost g v st st := by
  refine ⟨hinv, ⟨[], by simp⟩, fun x i h => h, fun x _ _ => rfl, Nat.le_refl _,
    ?_, Nat.le_refl _⟩
  intro x hx hnx
  exact absurd hx hnx

theorem TInv_low_update (g : DiGraph) (st : TSt) (hinv : TInv g st) (v : Nat)
    (hv : v ∈ st.stack) (X : Option Nat)
    (hW : (∃ u ∈ st.stack, st.indices.getD u none = X) ∨
      (∀ lv x, st.lowlink.getD v none = some lv → X = some x → lv ≤ x)) :
    TInv g { st with lowlink := st.lowlink.set v (omin (st.lowlink.getD v none) X) } := by
  obtain ⟨iv, hiv⟩ := Option.ne_none_iff_exists'.mp (hinv.svisited v hv)
  obtain ⟨lv, hlv, hlvle⟩ := hinv.lowle v iv hiv
  have hvlen : v < st.lowlink.length := by rw [hinv.llen]; exact hinv.smem v hv
  have hset_self : (st.lowlink.set v (omin (st.lowlink.getD v none) X)).getD v none
      = omin (st.lowlink.getD v none) X :=
    getD_set_self _ v _ none hvlen
  have hset_ne : ∀ x, x ≠ v →
      (st.lowlink.set v (omin (st.lowlink.getD v none) X)).getD x none
        = st.lowlink.getD x none :=
    fun x hx => getD_set_ne _ v x _ none (fun hh => hx hh.symm)
  refine ⟨hinv.ilen, by simpa [List.length_set] using hinv.llen, hinv.olen, hinv.smem,
    hinv.snodup, hinv.sflag, hinv.svisited, hinv.ibound, ?_, hinv.ssorted, ?_,
    hinv.crange, hinv.cnodup, hinv.cdisj, hinv.cvisited, hinv.cstack, hinv.cover⟩
  · intro x i hx
    by_cases hxv : x = v
    · subst hxv
      have hieq : i = iv := by
        rw [hiv] at hx
        exact (Option.some.inj hx).symm
      subst hieq
      rw [hset_self, hlv]
      cases hX : X with
      | none => exact ⟨lv, rfl, hlvle⟩
      | some x0 => exact ⟨min lv x0, rfl, Nat.le_trans (Nat.min_le_left lv x0) hlvle⟩
    · rw [hset_ne x hxv]
      exact hinv.lowle x i hx
  · intro x hxs
    by_cases hxv : x = v
    · subst hxv
      rw [hset_self, hlv]
      cases hX : X with
      | none =>
        obtain ⟨u, hu, hux⟩ := hinv.lwitness x hxs
        exact ⟨u, hu, by rw [hux, hlv]; rfl⟩
      | some x0 =>
        rcases Nat.le_total lv x0 with hle | hle
        · rw [show omin (some lv) (some x0) = some lv by simp [omin, Nat.min_eq_left hle]]
          obtain ⟨u, hu, hux⟩ := hinv.lwitness x hxs
          exact ⟨u, hu, by rw [hux, hlv]⟩
        · rcases hW with ⟨u, hu, hux⟩ | h2
          · rw [show omin (some lv) (some x0) = some x0 by simp [omin, Nat.min_eq_right hle]]
            exact ⟨u, hu, by rw [hux, hX]⟩
          · have := h2 lv x0 hlv hX
            have heq : lv = x0 := Nat.le_antisymm this hle
            subst heq
            rw [show omin (some lv) (some lv) = some lv by simp [omin]]
            obtain ⟨u, hu, hux⟩ := hinv.lwitness x hxs
            exact ⟨u, hu, by rw [hux, hlv]⟩
    · obtain ⟨u, hu, hux⟩ := hinv.lwitness x hxs
      exact ⟨u, hu, by rw [hux, hset_ne x hxv]⟩

theorem succLoop_sound (g : DiGraph) (fuel' : Nat) (v : Nat)
    (hrec : ∀ w stw, TInv g stw → w < g.len → stw.indices.getD w none = none →
      unvisitedCount g stw ≤ fuel' →
      ∃ st', strongconnect g fuel' w stw = some st' ∧ TPost g w stw st') :
    ∀ (ws : List Nat) (st : TSt),
      TInv g st → v ∈ st.stack → (∀ w ∈ ws, w < g.len) →
      unvisitedCount g st ≤ fuel' →
      ∃ st', succLoop (fun w stw => strongconnect g fuel' w stw) v ws st = some st' ∧
        TLoopPost g v st st' := by
  intro ws
  induction ws with
  | nil =>
    intro st hinv hv _ _
    exact ⟨st, by simp [succLoop], TLoopPost_refl g v st hinv⟩
  | cons w rest ih =>
    intro st hinv hv hws hfuel
    have hw : w < g.len := hws w (by simp)
    have hrest : ∀ x ∈ rest, x < g.len := fun x hx => hws x (by simp [hx])
    have hvvis : st.indices.getD v none ≠ none := hinv.svisited v hv
    obtain ⟨iv, hiv⟩ := Option.ne_none_iff_exists'.mp hvvis
    obtain ⟨lv0, hlv0, hlv0le⟩ := hinv.lowle v iv hiv
    have hivlt : iv < st.idx := hinv.ibound v iv hiv
    simp only [succLoop]
    by_cases hvis : (st.indices.getD w none).isNone
    · rw [if_pos hvis]
      have hwnone : st.indices.getD w none = none := Option.isNone_iff_eq_none.mp hvis
      obtain ⟨st1, hcall, hpost⟩ := hrec w st hinv hw hwnone hfuel
      rw [hcall]
      have hvst1 : v ∈ st1.stack := by
        obtain ⟨ext, hext⟩ := hpost.sext
        rw [hext]
        exact List.mem_append.mpr (Or.inl hv)
      have hvneqw : v ≠ w := by
        intro hh
        rw [hh, hwnone] at hvvis
        exact hvvis rfl
      have hlvpres : st1.lowlink.getD v none = st.lowlink.getD v none :=
        hpost.lpres v hvvis
      have hW : (∃ u ∈ st1.stack, st1.indices.getD u none = st1.lowlink.getD w none) ∨
          (∀ lv x, st1.lowlink.getD v none = some lv →
            st1.lowlink.getD w none = some x → lv ≤ x) := by
        rcases hpost.vstate with hws1 | ⟨_, hloweq⟩
        · exact Or.inl (hpost.inv.lwitness w hws1)
        · refine Or.inr ?_
          intro lv x hlv hx
          rw [hloweq, hpost.vidx] at hx
          have hx' : x = st.idx := (Option.some.inj hx).symm
          rw [hlvpres, hlv0] at hlv
          have hlv' : lv = lv0 := (Option.some.inj hlv).symm
          omega
      have hinvM := TInv_low_update g st1 hpost.inv v hvst1
        (st1.lowlink.getD w none) hW
      have hfragment : TLoopPost g v st
          { st1 with lowlink := st1.lowlink.set v (omin (st1.lowlink.getD v none) (st1.lowlink.getD w none)) } := by
        refine ⟨hinvM, hpost.sext, hpost.iext, ?_, Nat.le_of_lt hpost.imono,
          hpost.fresh, Nat.le_of_lt hpost.ucount⟩
        intro x hxv hxvis
        have h1 : (st1.lowlink.set v
            (omin (st1.lowlink.getD v none) (st1.lowlink.getD w none))).getD x none
            = st1.lowlink.getD x none :=
          getD_set_ne _ v x _ none (fun hh => hxv hh.symm)
        rw [h1]
        exact hpost.lpres x hxvis
      have hucM : unvisitedCount g { st1 with lowlink := st1.lowlink.set v (omin (st1.lowlink.getD v none) (st1.lowlink.getD w none)) } ≤ fuel' := by
        have : unvisitedCount g st1 ≤ fuel' := Nat.le_trans (Nat.le_of_lt hpost.ucount) hfuel
        exact this
      obtain ⟨st', hrun, hlp⟩ := ih _ hinvM hvst1 hrest hucM
      exact ⟨st', hrun, TLoopPost_trans g v st _ st' hfragment hlp⟩
    · rw [if_neg hvis]
      by_cases hostk : st.on_stack.getD w false
      · rw [if_pos hostk]
        have hwstk : w ∈ st.stack := (hinv.sflag w hw).mp hostk
        have hW : (∃ u ∈ st.stack, st.indices.getD u none = st.indices.getD w none) ∨
            (∀ lv x, st.lowlink.getD v none = some lv →
              st.indices.getD w none = some x → lv ≤ x) :=
          Or.inl ⟨w, hwstk, rfl⟩
        have hinvM := TInv_low_update g st hinv v hv (st.indices.getD w none) hW
        have hfragment : TLoopPost g v st
            { st with lowlink := st.lowlink.set v (omin (st.lowlink.getD v none) (st.indices.getD w none)) } := by
          refine ⟨hinvM, ⟨[], by simp⟩, fun x i h => h, ?_, Nat.le_refl _, ?_, Nat.le_refl _⟩
          · intro x hxv _
            exact getD_set_ne _ v x _ none (fun hh => hxv hh.symm)
          · intro x hx hnx
            exact absurd hx hnx
        obtain ⟨st', hrun, hlp⟩ := ih _ hinvM hv hrest hfuel
        exact ⟨st', hrun, TLoopPost_trans g v st _ st' hfragment hlp⟩
      · rw [if_neg hostk]
        exact ih st hinv hv hrest hfuel

theorem TInv_push (g : DiGraph) (st : TSt) (hinv : TInv g st) (v : Nat)
    (hv : v < g.len) (hnone : st.indices.getD v none = none) :
    TInv g { st with indices := st.indices.set v (some st.idx), lowlink := st.lowlink.set v (some st.idx), idx := st.idx + 1, stack := st.stack ++ [v], on_stack := st.on_stack.set v true } := by
  have hvi : v < st.indices.length := by rw [hinv.ilen]; exact hv
  have hvl : v < st.lowlink.length := by rw [hinv.llen]; exact hv
  have hvo : v < st.on_stack.length := by rw [hinv.olen]; exact hv
  have hvnstk : v ∉ st.stack := fun hh => (hinv.svisited v hh) hnone
  have hiself : (st.indices.set v (some st.idx)).getD v none = some st.idx :=
    getD_set_self _ v _ none hvi
  have hine : ∀ x, x ≠ v → (st.indices.set v (some st.idx)).getD x none = st.indices.getD x none :=
    fun x hx => getD_set_ne _ v x _ none (fun hh => hx hh.symm)
  have hlself : (st.lowlink.set v (some st.idx)).getD v none = some st.idx :=
    getD_set_self _ v _ none hvl
  have hlne : ∀ x, x ≠ v → (st.lowlink.set v (some st.idx)).getD x none = st.lowlink.getD x none :=
    fun x hx => getD_set_ne _ v x _ none (fun hh => hx hh.symm)
  have hoself : (st.on_stack.set v true).getD v false = true :=
    getD_set_self _ v _ false hvo
  have hone : ∀ x, x ≠ v → (st.on_stack.set v true).getD x false = st.on_stack.getD x false :=
    fun x hx => getD_set_ne _ v x _ false (fun hh => hx hh.symm)
  have hsvis : ∀ x ∈ st.stack, x ≠ v := fun x hx hh => hvnstk (hh ▸ hx)
  constructor
  · simpa [List.length_set] using hinv.ilen
  · simpa [List.length_set] using hinv.llen
  · simpa [List.length_set] using hinv.olen
  · intro x hx
    rcases List.mem_append.mp hx with hx | hx
    · exact hinv.smem x hx
    · simp at hx
      subst hx
      exact hv
  · refine List.Nodup.append hinv.snodup (by simp) ?_
    intro a ha hb
    simp at hb
    subst hb
    exact hvnstk ha
  · intro x hxlt
    by_cases hxv : x = v
    · subst hxv
      simp only [hoself]
      constructor
      · intro _
        exact List.mem_append.mpr (Or.inr (by simp))
      · intro _
        trivial
    · rw [hone x hxv]
      constructor
      · intro hfl
        exact List.mem_append.mpr (Or.inl ((hinv.sflag x hxlt).mp hfl))
      · intro hmem
        rcases List.mem_append.mp hmem with hmem | hmem
        · exact (hinv.sflag x hxlt).mpr hmem
        · simp at hmem
          exact absurd hmem hxv
  · intro x hx
    rcases List.mem_append.mp hx with hx | hx
    · rw [hine x (hsvis x hx)]
      exact hinv.svisited x hx
    · simp at hx
      subst hx
      rw [hiself]
      simp
  · intro x i hx
    show i < st.idx + 1
    by_cases hxv : x = v
    · subst hxv
      rw [hiself] at hx
      have := Option.some.inj hx
      omega
    · rw [hine x hxv] at hx
      have := hinv.ibound x i hx
      omega
  · intro x i hx
    by_cases hxv : x = v
    · subst hxv
      rw [hiself] at hx
      rw [hlself]
      have hi := Option.some.inj hx
      exact ⟨st.idx, rfl, by omega⟩
    · rw [hine x hxv] at hx
      rw [hlne x hxv]
      exact hinv.lowle x i hx
  · rw [List.pairwise_append]
    refine ⟨?_, by simp, ?_⟩
    · refine List.Pairwise.imp_of_mem ?_ hinv.ssorted
      intro a b ha hb hab
      have ha1 : (st.indices.set v (some st.idx)).getD a none = st.indices.getD a none :=
        hine a (hsvis a ha)
      have hb1 : (st.indices.set v (some st.idx)).getD b none = st.indices.getD b none :=
        hine b (hsvis b hb)
      change ((st.indices.set v (some st.idx)).getD a none).getD 0 <
        ((st.indices.set v (some st.idx)).getD b none).getD 0
      rw [ha1, hb1]
      exact hab
    · intro a ha b hb
      have hbv : b = v := by simpa using hb
      rw [hbv]
      obtain ⟨ia, hia⟩ := Option.ne_none_iff_exists'.mp (hinv.svisited a ha)
      have hlt := hinv.ibound a ia hia
      have ha1 : (st.indices.set v (some st.idx)).getD a none = some ia := by
        rw [hine a (hsvis a ha)]
        exact hia
      change ((st.indices.set v (some st.idx)).getD a none).getD 0 <
        ((st.indices.set v (some st.idx)).getD v none).getD 0
      rw [ha1, hiself]
      simpa using hlt
  · intro x hx
    rcases List.mem_append.mp hx with hx | hx
    · obtain ⟨u, hu, hux⟩ := hinv.lwitness x hx
      refine ⟨u, List.mem_append.mpr (Or.inl hu), ?_⟩
      rw [hine u (hsvis u hu), hlne x (hsvis x hx)]
      exact hux
    · simp at hx
      subst hx
      refine ⟨x, List.mem_append.mpr (Or.inr (by simp)), ?_⟩
      rw [hiself, hlself]
  · exact hinv.crange
  · exact hinv.cnodup
  · exact hinv.cdisj
  · intro c hc x hx
    have hvis := hinv.cvisited c hc x hx
    have hxv : x ≠ v := by
      intro hh
      rw [hh, hnone] at hvis
      exact hvis rfl
    rw [hine x hxv]
    exact hvis
  · intro c hc x hx
    have hnst := hinv.cstack c hc x hx
    have hvis := hinv.cvisited c hc x hx
    have hxv : x ≠ v := by
      intro hh
      rw [hh, hnone] at hvis
      exact hvis rfl
    intro hmem
    rcases List.mem_append.mp hmem with hmem | hmem
    · exact hnst hmem
    · simp at hmem
      exact hxv hmem
  · intro x hxlt hvis
    by_cases hxv : x = v
    · subst hxv
      exact Or.inl (List.mem_append.mpr (Or.inr (by simp)))
    · rw [hine x hxv] at hvis
      rcases hinv.cover x hxlt hvis with hmem | hcomp
      · exact Or.inl (List.mem_append.mpr (Or.inl hmem))
      · exact Or.inr hcomp

theorem strongconnect_sound : ∀ (fuel : Nat) (g : DiGraph) (v : Nat) (st : TSt),
    g.Valid → TInv g st → v < g.len → st.indices.getD v none = none →
    unvisitedCount g st ≤ fuel →
    ∃ st', strongconnect g fuel v st = some st' ∧ TPost g v st st' := by
  intro fuel
  induction fuel with
  | zero =>
    intro g v st hval hinv hv hnone hfuel
    have := ucount_pos g st v hv hnone
    omega
  | succ fuel ih =>
    intro g v st hval hinv hv hnone hfuel
    have hvi : v < st.indices.length := by rw [hinv.ilen]; exact hv
    have hvnstk : v ∉ st.stack := fun hh => (hinv.svisited v hh) hnone
    have hinv1 := TInv_push g st hinv v hv hnone
    have hpushiext : ∀ x i, st.indices.getD x none = some i →
        (st.indices.set v (some st.idx)).getD x none = some i := by
      intro x i hx
      have hxv : x ≠ v := by
        intro hh
        rw [hh, hnone] at hx
        exact Option.noConfusion hx
      rw [getD_set_ne _ v x _ none (fun hh => hxv hh.symm)]
      exact hx
    have hv1some : (st.indices.set v (some st.idx)).getD v none = some st.idx :=
      getD_set_self _ v _ none hvi
    have hu1 : unvisitedCount g { st with indices := st.indices.set v (some st.idx), lowlink := st.lowlink.set v (some st.idx), idx := st.idx + 1, stack := st.stack ++ [v], on_stack := st.on_stack.set v true } < unvisitedCount g st := by
      refine ucount_lt_of_newvisit g st _ hpushiext v hv hnone ?_
      rw [show ({ st with indices := st.indices.set v (some st.idx), lowlink := st.lowlink.set v (some st.idx), idx := st.idx + 1, stack := st.stack ++ [v], on_stack := st.on_stack.set v true } : TSt).indices = st.indices.set v (some st.idx) from rfl, hv1some]
      simp
    have hrec : ∀ w stw, TInv g stw → w < g.len → stw.indices.getD w none = none →
        unvisitedCount g stw ≤ fuel →
        ∃ st', strongconnect g fuel w stw = some st' ∧ TPost g w stw st' :=
      fun w stw hi hw hn hf => ih g w stw hval hi hw hn hf
    obtain ⟨st2, hrun, hlp⟩ := succLoop_sound g fuel v hrec (g.successors v)
      { st with indices := st.indices.set v (some st.idx), lowlink := st.lowlink.set v (some st.idx), idx := st.idx + 1, stack := st.stack ++ [v], on_stack := st.on_stack.set v true }
      hinv1 (List.mem_append.mpr (Or.inr (by simp))) (hval v hv) (by omega)
    obtain ⟨ext, hext⟩ := hlp.sext
    have hstack2 : st2.stack = st.stack ++ v :: ext := by
      rw [hext]
      simp
    have hvidx2 : st2.indices.getD v none = some st.idx :=
      hlp.iext v st.idx hv1some
    have hiextfull : ∀ x i, st.indices.getD x none = some i →
        st2.indices.getD x none = some i :=
      fun x i hx => hlp.iext x i (hpushiext x i hx)
    have hlowfull : ∀ x, st.indices.getD x none ≠ none →
        st2.lowlink.getD x none = st.lowlink.getD x none := by
      intro x hx
      have hxv : x ≠ v := by
        intro hh
        rw [hh] at hx
        exact hx hnone
      have h1 : st2.lowlink.getD x none =
          (st.lowlink.set v (some st.idx)).getD x none := by
        refine hlp.lpres x hxv ?_
        obtain ⟨i, hi⟩ := Option.ne_none_iff_exists'.mp hx
        rw [hpushiext x i hi]
        simp
      rw [h1, getD_set_ne _ v x _ none (fun hh => hxv hh.symm)]
    have hvst2 : v ∈ st2.stack := by
      rw [hstack2]
      exact List.mem_append.mpr (Or.inr (by simp))
    have hnodup2 := hlp.inv.snodup
    rw [hstack2] at hnodup2
    have hnd := List.nodup_append.mp hnodup2
    have hvnotext : v ∉ ext := by
      have := hnd.2.1
      rw [List.nodup_cons] at this
      exact this.1
    have hextnodup : ext.Nodup := by
      have := hnd.2.1
      rw [List.nodup_cons] at this
      exact this.2
    have hdisjointSE : ∀ a ∈ st.stack, a ∉ v :: ext := by
      intro a ha
      exact hnd.2.2 ha
    have hucount2 : unvisitedCount g st2 < unvisitedCount g st :=
      Nat.lt_of_le_of_lt hlp.umono hu1
    simp only [strongconnect]
    rw [hrun]
    simp only []
    by_cases hroot : st2.lowlink.getD v none = st2.indices.getD v none
    · rw [if_pos hroot]
      have hrev : (st.stack ++ v :: ext).reverse = ext.reverse ++ v :: st.stack.reverse := by
        simp
      have hsplit : popSplit v st2.stack.reverse =
          some (ext.reverse ++ [v], st.stack.reverse) := by
        rw [hstack2, hrev]
        exact popSplit_append v ext.reverse st.stack.reverse
          (fun hh => hvnotext (List.mem_reverse.mp hh))
      rw [hsplit]
      have hcompstack : ∀ x ∈ ext.reverse ++ [v], x ∈ st2.stack := by
        intro x hx
        rw [hstack2]
        rcases List.mem_append.mp hx with hx | hx
        · exact List.mem_append.mpr (Or.inr (by simp [List.mem_reverse.mp hx]))
        · simp at hx
          subst hx
          exact List.mem_append.mpr (Or.inr (by simp))
      have hcompnstk : ∀ x ∈ ext.reverse ++ [v], x ∉ st.stack := by
        intro x hx hxs
        rcases List.mem_append.mp hx with hx | hx
        · exact hdisjointSE x hxs (by simp [List.mem_reverse.mp hx])
        · simp at hx
          subst hx
          exact hvnstk hxs
      refine ⟨{ st2 with stack := st.stack, on_stack := (ext.reverse ++ [v]).foldl (fun os w => os.set w false) st2.on_stack, components := st2.components ++ [ext.reverse ++ [v]] }, ?_, ?_⟩
      · simp only [List.reverse_reverse]
      · have hinvP : TInv g { st2 with stack := st.stack, on_stack := (ext.reverse ++ [v]).foldl (fun os w => os.set w false) st2.on_stack, components := st2.components ++ [ext.reverse ++ [v]] } := by
          refine ⟨hlp.inv.ilen, hlp.inv.llen, ?_, hinv.smem, hinv.snodup, ?_, ?_,
            hlp.inv.ibound, hlp.inv.lowle, ?_, ?_, ?_, ?_, ?_, ?_, ?_, ?_⟩
          · rw [show ({ st2 with stack := st.stack, on_stack := (ext.reverse ++ [v]).foldl (fun os w => os.set w false) st2.on_stack, components := st2.components ++ [ext.reverse ++ [v]] } : TSt).on_stack = (ext.reverse ++ [v]).foldl (fun os w => os.set w false) st2.on_stack from rfl]
            rw [foldl_set_false_length]
            exact hlp.inv.olen
          · intro x hxlt
            rw [show ({ st2 with stack := st.stack, on_stack := (ext.reverse ++ [v]).foldl (fun os w => os.set w false) st2.on_stack, components := st2.components ++ [ext.reverse ++ [v]] } : TSt).on_stack = (ext.reverse ++ [v]).foldl (fun os w => os.set w false) st2.on_stack from rfl]
            rw [foldl_set_false_getD]
            by_cases hxc : x ∈ ext.reverse ++ [v]
            · rw [if_pos hxc]
              constructor
              · intro hh
                exact absurd hh (by simp)
              · intro hh
                exact absurd hh (hcompnstk x hxc)
            · rw [if_neg hxc]
              rw [hlp.inv.sflag x hxlt, hstack2]
              constructor
              · intro hh
                rcases List.mem_append.mp hh with hh | hh
                · exact hh
                · exfalso
                  refine hxc ?_
                  rcases List.mem_cons.mp hh with hh | hh
                  · subst hh
                    exact List.mem_append.mpr (Or.inr (by simp))
                  · exact List.mem_append.mpr (Or.inl (List.mem_reverse.mpr hh))
              · intro hh
                exact List.mem_append.mpr (Or.inl hh)
          · intro x hx
            refine hlp.inv.svisited x ?_
            rw [hstack2]
            exact List.mem_append.mpr (Or.inl hx)
          · have hs2 := hlp.inv.ssorted
            rw [hstack2] at hs2
            exact (List.pairwise_append.mp hs2).1
          · intro x hx
            obtain ⟨u, hu, hux⟩ := hinv.lwitness x hx
            obtain ⟨iu, hiu⟩ := Option.ne_none_iff_exists'.mp (hinv.svisited u hu)
            refine ⟨u, hu, ?_⟩
            rw [show ({ st2 with stack := st.stack, on_stack := (ext.reverse ++ [v]).foldl (fun os w => os.set w false) st2.on_stack, components := st2.components ++ [ext.reverse ++ [v]] } : TSt).indices = st2.indices from rfl]
            rw [show ({ st2 with stack := st.stack, on_stack := (ext.reverse ++ [v]).foldl (fun os w => os.set w false) st2.on_stack, components := st2.components ++ [ext.reverse ++ [v]] } : TSt).lowlink = st2.lowlink from rfl]
            rw [hlowfull x (hinv.svisited x hx), ← hux, hiextfull u iu hiu, hiu]
          · intro c hc
            rcases List.mem_append.mp hc with hc | hc
            · exact hlp.inv.crange c hc
            · simp at hc
              subst hc
              intro x hx
              exact hlp.inv.smem x (hcompstack x hx)
          · intro c hc
            rcases List.mem_append.mp hc with hc | hc
            · exact hlp.inv.cnodup c hc
            · simp at hc
              subst hc
              refine List.Nodup.append (List.nodup_reverse.mpr hextnodup) (by simp) ?_
              intro a ha hav
              simp at hav
              subst hav
              exact hvnotext (List.mem_reverse.mp ha)
          · rw [List.pairwise_append]
            refine ⟨hlp.inv.cdisj, by simp, ?_⟩
            intro c hc d hd x hxc hxd
            have hd' : d = ext.reverse ++ [v] := by simpa using hd
            subst hd'
            exact hlp.inv.cstack c hc x hxc (hcompstack x hxd)
          · intro c hc
            rcases List.mem_append.mp hc with hc | hc
            · exact hlp.inv.cvisited c hc
            · simp at hc
              subst hc
              intro x hx
              exact hlp.inv.svisited x (hcompstack x hx)
          · intro c hc
            rcases List.mem_append.mp hc with hc | hc
            · intro x hx hmem
              refine hlp.inv.cstack c hc x hx ?_
              rw [hstack2]
              exact List.mem_append.mpr (Or.inl hmem)
            · simp at hc
              subst hc
              exact hcompnstk
          · intro x hxlt hvis
            rcases hlp.inv.cover x hxlt hvis with hmem | ⟨c, hc, hxc⟩
            · rw [hstack2] at hmem
              rcases List.mem_append.mp hmem with hmem | hmem
              · exact Or.inl hmem
              · refine Or.inr ⟨ext.reverse ++ [v], List.mem_append.mpr (Or.inr (by simp)), ?_⟩
                rcases List.mem_cons.mp hmem with hmem | hmem
                · subst hmem
                  exact List.mem_append.mpr (Or.inr (by simp))
                · exact List.mem_append.mpr (Or.inl (List.mem_reverse.mpr hmem))
            · exact Or.inr ⟨c, List.mem_append.mpr (Or.inl hc), hxc⟩
        refine ⟨hinvP, ⟨[], by simp⟩, hiextfull, ?_, hvidx2, ?_, ?_, ?_, Or.inl rfl, ?_⟩
        · intro x hx
          exact hlowfull x hx
        · have h1 : st.idx + 1 ≤ st2.idx := hlp.imono
          show st.idx < st2.idx
          omega
        · intro x hx hnx
          exact absurd hx hnx
        · exact hucount2
        · exact Or.inr ⟨rfl, hroot⟩
    · rw [if_neg hroot]
      refine ⟨st2, rfl, ?_⟩
      have hfresh2 : ∀ x ∈ st2.stack, x ∉ st.stack →
          ∃ i, st2.indices.getD x none = some i ∧ st.idx ≤ i := by
        intro x hx hnx
        by_cases hxv : x = v
        · subst hxv
          exact ⟨st.idx, hvidx2, Nat.le_refl _⟩
        · have hx1 : x ∉ st.stack ++ [v] := by
            intro hh
            rcases List.mem_append.mp hh with hh | hh
            · exact hnx hh
            · simp at hh
              exact hxv hh
          obtain ⟨i, hi, hle⟩ := hlp.fresh x hx hx1
          have hle' : st.idx + 1 ≤ i := hle
          exact ⟨i, hi, by omega⟩
      refine ⟨hlp.inv, ⟨v :: ext, hstack2⟩, hiextfull, hlowfull, hvidx2, ?_, hfresh2,
        hucount2, ?_, Or.inl hvst2⟩
      · have h1 : st.idx + 1 ≤ st2.idx := hlp.imono
        omega
      · refine Or.inr ?_
        obtain ⟨l, hl, hlle⟩ := hlp.inv.lowle v st.idx hvidx2
        have hlne : l ≠ st.idx := by
          intro hh
          rw [hh] at hl
          exact hroot (by rw [hl, hvidx2])
        obtain ⟨u, hu, hux⟩ := hlp.inv.lwitness v hvst2
        rw [hl] at hux
        by_cases hu1m : u ∈ st.stack ++ [v]
        · rcases List.mem_append.mp hu1m with hum | hum
          · exact List.ne_nil_of_mem hum
          · exfalso
            simp at hum
            subst hum
            rw [hvidx2] at hux
            have := Option.some.inj hux
            omega
        · exfalso
          obtain ⟨i, hi, hile⟩ := hlp.fresh u hu hu1m
          have hile' : st.idx + 1 ≤ i := hile
          rw [hi] at hux
          have := Option.some.inj hux
          omega

theorem ucount_le_len (g : DiGraph) (st : TSt) : unvisitedCount g st ≤ g.len := by
  have h1 := List.length_filter_le (fun v => (st.indices.getD v none).isNone) (List.range g.len)
  simpa [unvisitedCount] using h1

theorem tarjanMain_sound (g : DiGraph) (hval : g.Valid) :
    ∀ (vs : List Nat) (st : TSt),
      TInv g st → st.stack = [] → (∀ x ∈ vs, x < g.len) →
      ∃ st', tarjanMain g g.len vs st = some st' ∧ TInv g st' ∧ st'.stack = [] ∧
        (∀ x ∈ vs, st'.indices.getD x none ≠ none) ∧
        (∀ x i, st.indices.getD x none = some i → st'.indices.getD x none = some i) := by
  intro vs
  induction vs with
  | nil =>
    intro st hinv hstk _
    exact ⟨st, by simp [tarjanMain], hinv, hstk, by simp, fun x i h => h⟩
  | cons v rest ih =>
    intro st hinv hstk hvs
    have hv : v < g.len := hvs v (by simp)
    have hrest : ∀ x ∈ rest, x < g.len := fun x hx => hvs x (by simp [hx])
    simp only [tarjanMain]
    by_cases hvis : (st.indices.getD v none).isNone
    · rw [if_pos hvis]
      have hnone : st.indices.getD v none = none := Option.isNone_iff_eq_none.mp hvis
      obtain ⟨st1, hcall, hpost⟩ := strongconnect_sound g.len g v st hval hinv hv hnone
        (ucount_le_len g st)
      rw [hcall]
      have hstk1 : st1.stack = [] := by
        rcases hpost.rootp with h | h
        · rw [h, hstk]
        · exact absurd hstk h
      obtain ⟨st', hrun, hinv', hstk', hall, hpres⟩ := ih st1 hpost.inv hstk1 hrest
      refine ⟨st', hrun, hinv', hstk', ?_, ?_⟩
      · intro x hx
        rcases List.mem_cons.mp hx with hx | hx
        · subst hx
          rw [hpres x st.idx hpost.vidx]
          simp
        · exact hall x hx
      · intro x i hx
        exact hpres x i (hpost.iext x i hx)
    · rw [if_neg hvis]
      have hvvis : st.indices.getD v none ≠ none := by
        intro hh
        rw [hh] at hvis
        exact hvis rfl
      obtain ⟨st', hrun, hinv', hstk', hall, hpres⟩ := ih st hinv hstk hrest
      refine ⟨st', hrun, hinv', hstk', ?_, hpres⟩
      intro x hx
      rcases List.mem_cons.mp hx with hx | hx
      · subst hx
        obtain ⟨i, hi⟩ := Option.ne_none_iff_exists'.mp hvvis
        rw [hpres x i hi]
        simp
      · exact hall x hx

/-- C4: for every valid graph, the components returned by `tarjan_scc`
partition the node set `[0, nodeCount)`: a node index belongs to some
component exactly when it is in range, the components are pairwise
disjoint, and no component repeats a node — so every node, including
isolated ones, appears in exactly one component. -/
theorem tarjan_scc_partition (g : DiGraph) (hval : g.Valid) (r : SCCResult)
    (h : tarjan_scc g = some r) :
    (∀ v, v < g.len ↔ ∃ c ∈ r.components, v ∈ c) ∧
      r.components.Pairwise (fun c d => ∀ x, x ∈ c → x ∉ d) ∧
      (∀ c ∈ r.components, c.Nodup) := by
  simp only [tarjan_scc] at h
  split at h
  · rename_i hz
    obtain rfl := Option.some.inj h
    refine ⟨?_, by simp, by simp⟩
    intro v
    rw [hz]
    simp
  · rename_i hz
    obtain ⟨st', hrun, hinv', hstk', hall, _⟩ := tarjanMain_sound g hval
      (List.range g.len) (tarjanInit g.len) (tarjanInit_inv g) rfl
      (fun x hx => List.mem_range.mp hx)
    rw [hrun] at h
    simp only [] at h
    obtain rfl := Option.some.inj h
    refine ⟨?_, hinv'.cdisj, hinv'.cnodup⟩
    intro v
    constructor
    · intro hv
      have hvis := hall v (List.mem_range.mpr hv)
      rcases hinv'.cover v hv hvis with hmem | hc
      · rw [hstk'] at hmem
        exact absurd hmem (by simp)
      · exact hc
    · intro ⟨c, hc, hvc⟩
      exact hinv'.crange c hc v hvc

/-- C4 witness: the partition property evaluated on the two-node cycle
graph, whose single component is `[1, 0]`. -/
theorem tarjan_scc_partition_witness :
    (∀ v, v < DiGraph.len ⟨[[1], [0]]⟩ ↔
      ∃ c ∈ [[1, 0]], v ∈ c) ∧
      ([[1, 0]] : List (List Nat)).Pairwise (fun c d => ∀ x, x ∈ c → x ∉ d) ∧
      (∀ c ∈ [[1, 0]], List.Nodup c) := by
  have h := tarjan_scc_partition ⟨[[1], [0]]⟩ (by decide) ⟨[[1, 0]], true, 1⟩ (by decide)
  exact h

/-- C9: for every valid graph, `tarjan_scc` completes successfully: the
`stack.pop().unwrap()` in the SCC-collection loop never panics (whenever
`lowlink[v] == indices[v]`, `v` is still on the explicit stack, which is
part of the invariant proved in `strongconnect_sound`), and the recursion
depth is bounded by the number of unvisited nodes, so fuel `g.len`
suffices. -/
theorem tarjan_scc_no_panic (g : DiGraph) (hval : g.Valid) :
    ∃ r, tarjan_scc g = some r := by
  simp only [tarjan_scc]
  split
  · exact ⟨_, rfl⟩
  · obtain ⟨st', hrun, _, _, _, _⟩ := tarjanMain_sound g hval
      (List.range g.len) (tarjanInit g.len) (tarjanInit_inv g) rfl
      (fun x hx => List.mem_range.mp hx)
    rw [hrun]
    exact ⟨_, rfl⟩

/-- C9 witness: the theorem applied to the two-node cycle graph. -/
theorem tarjan_scc_no_panic_witness :
    DiGraph.Valid ⟨[[1], [0]]⟩ ∧ ∃ r, tarjan_scc ⟨[[1], [0]]⟩ = some r :=
  ⟨by decide, tarjan_scc_no_panic ⟨[[1], [0]]⟩ (by decide)⟩

theorem getD_set_false_self (bl : List Bool) (u : Nat) :
    (bl.set u false).getD u false = false := by
  by_cases h : u < bl.length
  · exact getD_set_self bl u false false h
  · rw [List.set_eq_of_length_le (by omega)]
    exact getD_of_len_le bl u false (by omega)

theorem reach_trans {bm : List (List Nat)} {bl : List Bool} {u y x : Nat}
    (h1 : Reach bm bl u y) (h2 : Reach bm bl y x) : Reach bm bl u x := by
  induction h2 with
  | refl => exact h1
  | step _ hmem hbl ih => exact Reach.step ih hmem hbl

theorem reach_mono {bm bm' : List (List Nat)} {bl bl' : List Bool}
    (hm : ∀ i x, x ∈ bm'.getD i [] → x ∈ bm.getD i [])
    (hb : ∀ i, bl'.getD i false = true → bl.getD i false = true)
    {u x : Nat} (h : Reach bm' bl' u x) : Reach bm bl u x := by
  induction h with
  | refl => exact Reach.refl u
  | step _ hmem hbl ih => exact Reach.step ih (hm _ _ hmem) (hb _ hbl)

/-- Setting a node with an empty dependency set to blocked only adds that
node itself to any reach set. -/
theorem reach_set_true {bm : List (List Nat)} {bl : List Bool} {v : Nat}
    (hv : bm.getD v [] = []) {u x : Nat}
    (h : Reach bm (bl.set v true) u x) : Reach bm bl u x ∨ x = v := by
  induction h with
  | refl => exact Or.inl (Reach.refl u)
  | @step y' x' _ hmem hbl ih =>
    rcases ih with hy | rfl
    · by_cases hxv : x' = v
      · exact Or.inr hxv
      · refine Or.inl (Reach.step hy hmem ?_)
        rwa [getD_set_ne bl v x' true false (fun h => hxv h.symm)] at hbl
    · rw [hv] at hmem
      exact absurd hmem (List.not_mem_nil _)

theorem blockAdd_length (mn v : Nat) : ∀ (ws : List Nat) (bm : List (List Nat)),
    (blockAdd mn v ws bm).length = bm.length := by
  intro ws
  induction ws with
  | nil => intro bm; rfl
  | cons w rest ih =>
    intro bm
    simp only [blockAdd]
    split
    · split
      · exact ih bm
      · rw [ih]; simp
    · exact ih bm

theorem blockAdd_mem (mn v : Nat) : ∀ (ws : List Nat) (bm : List (List Nat)) (y x : Nat),
    x ∈ (blockAdd mn v ws bm).getD y [] → x ∈ bm.getD y [] ∨ x = v := by
  intro ws
  induction ws with
  | nil => intro bm y x h; exact Or.inl h
  | cons w rest ih =>
    intro bm y x h
    simp only [blockAdd] at h
    split at h
    · split at h
      · exact ih bm y x h
      · rcases ih _ y x h with hmem | hv
        · by_cases hlen : w < bm.length
          · by_cases hyw : y = w
            · subst hyw
              rw [getD_set_self bm y _ [] hlen] at hmem
              rcases List.mem_append.mp hmem with h1 | h2
              · exact Or.inl h1
              · exact Or.inr (by simpa using h2)
            · rw [getD_set_ne bm w y _ [] (fun h => hyw h.symm)] at hmem
              exact Or.inl hmem
          · rw [List.set_eq_of_length_le (by omega)] at hmem
            exact Or.inl hmem
        · exact Or.inr hv
    · exact ih bm y x h

theorem blockAdd_getD_skip (mn v : Nat) : ∀ (ws : List Nat) (bm : List (List Nat)) (u : Nat),
    (u ∈ ws → ¬ mn ≤ u) → (blockAdd mn v ws bm).getD u [] = bm.getD u [] := by
  intro ws
  induction ws with
  | nil => intro bm u _; rfl
  | cons w rest ih =>
    intro bm u hu
    simp only [blockAdd]
    split
    · rename_i hmn
      have hwu : w ≠ u := by
        intro h
        exact hu (by simp [h]) (h ▸ hmn)
      split
      · exact ih bm u (fun h => hu (by simp [h]))
      · rw [ih _ u (fun h => hu (by simp [h]))]
        exact getD_set_ne bm w u _ [] hwu
    · exact ih bm u (fun h => hu (by simp [h]))

/-- Inserting `v` into dependency sets only adds reach links through `v`. -/
theorem reach_blockAdd (mn v : Nat) (ws : List Nat) (bm : List (List Nat))
    (bl : List Bool) {u x : Nat}
    (h : Reach (blockAdd mn v ws bm) bl u x) :
    Reach bm bl u x ∨ (bl.getD v false = true ∧ Reach bm bl v x) := by
  induction h with
  | refl => exact Or.inl (Reach.refl u)
  | @step y' x' _ hmem hbl ih =>
    rcases blockAdd_mem mn v ws bm y' x' hmem with hold | rfl
    · rcases ih with hy | ⟨hbv, hy⟩
      · exact Or.inl (Reach.step hy hold hbl)
      · exact Or.inr ⟨hbv, Reach.step hy hold hbl⟩
    · exact Or.inr ⟨hbl, Reach.refl x'⟩

/-- Iterating the drained dependents preserves the cascade contract:
relative to the original state `(bm0, bl0)` and cascade root `u0`, the
blocked vector and the dependency sets only shrink, any node not
reachable from the root keeps its blocked status, and emptiness of
dependency sets of unblocked nodes is preserved. -/
theorem unblockGo_contract (bm0 : List (List Nat)) (bl0 : List Bool) (u0 : Nat)
    (fuel' : Nat)
    (ih : ∀ (w : Nat) (bl : List Bool) (bm : List (List Nat)) bl' bm',
      unblock fuel' w bl bm = some (bl', bm') →
      bl'.length = bl.length ∧ bm'.length = bm.length ∧
      (∀ x, bl'.getD x false = true → bl.getD x false = true) ∧
      (∀ y x, x ∈ bm'.getD y [] → x ∈ bm.getD y []) ∧
      (∀ p, ¬ Reach bm bl w p → bl'.getD p false = bl.getD p false) ∧
      ((∀ z, bl.getD z false = false → bm.getD z [] = []) →
        ∀ z, bl'.getD z false = false → bm'.getD z [] = [])) :
    ∀ (ws : List Nat) (bl : List Bool) (bm : List (List Nat)) bl' bm',
      (∀ x, bl.getD x false = true → bl0.getD x false = true) →
      (∀ y x, x ∈ bm.getD y [] → x ∈ bm0.getD y []) →
      (∀ w ∈ ws, bl0.getD w false = true → Reach bm0 bl0 u0 w) →
      unblockGo (fun w bl1 bm1 => unblock fuel' w bl1 bm1) ws bl bm = some (bl', bm') →
      bl'.length = bl.length ∧ bm'.length = bm.length ∧
      (∀ x, bl'.getD x false = true → bl.getD x false = true) ∧
      (∀ y x, x ∈ bm'.getD y [] → x ∈ bm.getD y []) ∧
      (∀ p, ¬ Reach bm0 bl0 u0 p → bl'.getD p false = bl.getD p false) ∧
      ((∀ z, bl.getD z false = false → bm.getD z [] = []) →
        ∀ z, bl'.getD z false = false → bm'.getD z [] = []) := by
  intro ws
  induction ws with
  | nil =>
    intro bl bm bl' bm' _ _ _ hrun
    simp only [unblockGo] at hrun
    obtain ⟨rfl, rfl⟩ := Prod.mk.injEq .. ▸ Option.some.inj hrun
    exact ⟨rfl, rfl, fun x h => h, fun y x h => h, fun p _ => rfl, fun hE => hE⟩
  | cons w rest ihws =>
    intro bl bm bl' bm' hble hbme hws hrun
    simp only [unblockGo] at hrun
    split at hrun
    · rename_i hbw
      -- w is blocked: the recursive unblock runs
      match hcall : unblock fuel' w bl bm with
      | none => rw [hcall] at hrun; exact absurd hrun (by simp)
      | some (blM, bmM) =>
        rw [hcall] at hrun
        obtain ⟨hlen1, hlen2, hshr1, hshr2, hsafe1, hE1⟩ := ih w bl bm blM bmM hcall
        have hreach_w : Reach bm0 bl0 u0 w := hws w (by simp) (hble w hbw)
        have hsafeO : ∀ p, ¬ Reach bm0 bl0 u0 p →
            blM.getD p false = bl.getD p false := by
          intro p hp
          refine hsafe1 p (fun hr => hp ?_)
          exact reach_trans hreach_w (reach_mono hbme hble hr)
        obtain ⟨hlen1', hlen2', hshr1', hshr2', hsafe1', hE1'⟩ :=
          ihws blM bmM bl' bm'
            (fun x h => hble x (hshr1 x h))
            (fun y x h => hbme y x (hshr2 y x h))
            (fun w' hw' hb => hws w' (by simp [hw']) hb) hrun
        refine ⟨hlen1'.trans hlen1, hlen2'.trans hlen2,
          fun x h => hshr1 x (hshr1' x h),
          fun y x h => hshr2 y x (hshr2' y x h),
          fun p hp => (hsafe1' p hp).trans (hsafeO p hp),
          fun hE => hE1' (hE1 hE)⟩
    · -- w is not blocked: skip
      rename_i hbw
      exact ihws bl bm bl' bm' hble hbme
        (fun w' hw' hb => hws w' (by simp [hw']) hb) hrun

/-- The cascading `unblock` only unblocks nodes reachable through the
dependency sets from its root, only shrinks the blocked vector and the
dependency sets, and keeps dependency sets of unblocked nodes empty. -/
theorem unblock_contract : ∀ (fuel u : Nat) (bl : List Bool) (bm : List (List Nat)) bl' bm',
    unblock fuel u bl bm = some (bl', bm') →
    bl'.length = bl.length ∧ bm'.length = bm.length ∧
    (∀ x, bl'.getD x false = true → bl.getD x false = true) ∧
    (∀ y x, x ∈ bm'.getD y [] → x ∈ bm.getD y []) ∧
    (∀ p, ¬ Reach bm bl u p → bl'.getD p false = bl.getD p false) ∧
    ((∀ z, bl.getD z false = false → bm.getD z [] = []) →
      ∀ z, bl'.getD z false = false → bm'.getD z [] = []) := by
  intro fuel
  induction fuel with
  | zero => intro u bl bm bl' bm' h; exact absurd h (by simp [unblock])
  | succ fuel' ih =>
    intro u bl bm bl' bm' h
    simp only [unblock] at h
    have hble : ∀ x, (bl.set u false).getD x false = true → bl.getD x false = true := by
      intro x hx
      by_cases hxu : x = u
      · subst hxu; rw [getD_set_false_self] at hx; exact absurd hx (by simp)
      · rwa [getD_set_ne bl u x false false (fun h => hxu h.symm)] at hx
    have hbme : ∀ y x, x ∈ (bm.set u []).getD y [] → x ∈ bm.getD y [] := by
      intro y x hx
      by_cases hyu : y = u
      · rw [hyu] at hx ⊢
        by_cases hlen : u < bm.length
        · rw [getD_set_self bm u [] [] hlen] at hx; exact absurd hx (List.not_mem_nil _)
        · rwa [List.set_eq_of_length_le (by omega)] at hx
      · rwa [getD_set_ne bm u y [] [] (fun h => hyu h.symm)] at hx
    have hws : ∀ w ∈ bm.getD u [], bl.getD w false = true → Reach bm bl u w :=
      fun w hw hb => Reach.step (Reach.refl u) hw hb
    obtain ⟨hlen1, hlen2, hshr1, hshr2, hsafe, hE⟩ :=
      unblockGo_contract bm bl u fuel' ih (bm.getD u []) (bl.set u false) (bm.set u [])
        bl' bm' hble hbme hws h
    refine ⟨hlen1.trans (by simp), hlen2.trans (by simp),
      fun x hx => hble x (hshr1 x hx),
      fun y x hx => hbme y x (hshr2 y x hx),
      fun p hp => ?_, fun hEin => ?_⟩
    · have hpu : p ≠ u := fun h => hp (by rw [h]; exact Reach.refl u)
      rw [hsafe p hp, getD_set_ne bl u p false false (fun h => hpu h.symm)]
    · refine hE (fun z hz => ?_)
      by_cases hzu : z = u
      · subst hzu
        by_cases hlen : z < bm.length
        · exact getD_set_self bm z [] [] hlen
        · rw [List.set_eq_of_length_le (by omega)]
          exact getD_of_len_le bm z [] (by omega)
      · rw [getD_set_ne bl u z false false (fun h => hzu h.symm)] at hz
        rw [getD_set_ne bm u z [] [] (fun h => hzu h.symm)]
        exact hEin z hz

theorem reach_of_empt {bm : List (List Nat)} {bl : List Bool} {v x : Nat}
    (hv : bm.getD v [] = []) (h : Reach bm bl v x) : x = v := by
  induction h with
  | refl => rfl
  | @step y' x' _ hmem _ ih =>
    subst ih
    rw [hv] at hmem
    exact absurd hmem (List.not_mem_nil _)

theorem append_singleton_eq_cases {α : Type} {pre suf A : List α} {a v : α}
    (h : pre ++ a :: suf = A ++ [v]) :
    (pre = A ∧ a = v ∧ suf = []) ∨ ∃ suf', suf = suf' ++ [v] ∧ A = pre ++ a :: suf' := by
  rcases List.eq_nil_or_concat suf with rfl | ⟨s', l, rfl⟩
  · left
    have h' : pre ++ [a] = A ++ [v] := by simpa using h
    have hlen : pre.length = A.length := by
      have := congrArg List.length h'
      simp at this
      omega
    obtain ⟨h1, h2⟩ := List.append_inj h' hlen
    exact ⟨h1, by simpa using h2, rfl⟩
  · right
    have h' : (pre ++ a :: s') ++ [l] = A ++ [v] := by simpa using h
    have hlen : (pre ++ a :: s').length = A.length := by
      have := congrArg List.length h'
      simp at this
      simp
      omega
    obtain ⟨h1, h2⟩ := List.append_inj h' hlen
    have hlv : l = v := by simpa using h2
    subst hlv
    exact ⟨s', by simp, h1.symm⟩

theorem dropLast_head_ne_nil {α : Type} {l : List α} (h : l.dropLast ≠ []) :
    l.dropLast.head? = l.head? := by
  cases l with
  | nil => simp at h
  | cons x rest =>
    cases rest with
    | nil => simp at h
    | cons y t => simp

/-- The core facts survive popping the stack. -/
theorem jcore_dropLast {g : DiGraph} {s : Nat} {st : JSt} (hcore : JCore g s st) :
    JCore g s { st with stack := st.stack.dropLast } := by
  refine ⟨hcore.blen, hcore.mlen, hcore.snodup.sublist (List.dropLast_sublist _),
    fun x hx => hcore.sbound x ((List.dropLast_sublist _).mem hx),
    fun x hx => hcore.sge x ((List.dropLast_sublist _).mem hx),
    fun hne => ?_, ?_, hcore.cgood⟩
  · rw [dropLast_head_ne_nil hne]
    exact hcore.shead (by intro h; rw [h] at hne; simp at hne)
  · exact hcore.spath.prefix (List.dropLast_prefix _)

/-- The core facts do not depend on the contents of the blocked vector or
the dependency sets, only on their lengths. -/
theorem jcore_replace {g : DiGraph} {s : Nat} {st : JSt} (hcore : JCore g s st)
    {bl : List Bool} {bm : List (List Nat)}
    (hb : bl.length = st.blocked.length) (hm : bm.length = st.blocked_map.length) :
    JCore g s { st with blocked := bl, blocked_map := bm } :=
  ⟨hb.trans hcore.blen, hm.trans hcore.mlen, hcore.snodup, hcore.sbound,
    hcore.sge, hcore.shead, hcore.spath, hcore.cgood⟩

/-- Pushing an unblocked node at `circuit` entry preserves the invariant. -/
theorem jtrans_push {g : DiGraph} {s : Nat} {st : JSt} {v : Nat}
    (hcore : JCore g s st) (hpre : JPre st)
    (hv : v < g.len) (hsv : s ≤ v)
    (hbv : st.blocked.getD v false = false)
    (hroot : st.stack = [] → v = s)
    (hedge : ∀ u, st.stack.getLast? = some u → v ∈ g.successors u) :
    v ∉ st.stack ∧
    JCore g s { st with stack := st.stack ++ [v], blocked := st.blocked.set v true } ∧
    JPre { st with stack := st.stack ++ [v], blocked := st.blocked.set v true } := by
  have hvnotin : v ∉ st.stack := by
    intro hmem
    rw [hpre.sblocked v hmem] at hbv
    exact absurd hbv (by simp)
  have hvlen : v < st.blocked.length := by rw [hcore.blen]; exact hv
  have hbmv : st.blocked_map.getD v [] = [] := hpre.empt v hbv
  refine ⟨hvnotin, ⟨by simpa using hcore.blen, hcore.mlen, ?_, ?_, ?_, ?_, ?_, hcore.cgood⟩,
    ?_, ?_, ?_⟩
  · simp [List.nodup_append, hcore.snodup, hvnotin]
  · intro x hx
    rcases List.mem_append.mp hx with h | h
    · exact hcore.sbound x h
    · simp at h; omega
  · intro x hx
    rcases List.mem_append.mp hx with h | h
    · exact hcore.sge x h
    · simp at h; omega
  · intro _
    cases hst : st.stack with
    | nil => simp [hst, hroot hst]
    | cons y t =>
      have := hcore.shead (by simp [hst])
      rw [hst] at this
      simpa using this
  · rw [EdgePath, List.chain'_append]
    refine ⟨hcore.spath, by simp [EdgePath], ?_⟩
    intro x hx y hy
    simp at hy
    subst hy
    exact hedge x hx
  · intro x hx
    rcases List.mem_append.mp hx with h | h
    · by_cases hxv : x = v
      · subst hxv
        exact getD_set_self st.blocked _ true false hvlen
      · rw [getD_set_ne st.blocked v x true false (fun h => hxv h.symm)]
        exact hpre.sblocked x h
    · simp at h
      subst h
      exact getD_set_self st.blocked _ true false hvlen
  · intro u hu
    by_cases huv : u = v
    · subst huv
      rw [getD_set_self st.blocked u true false hvlen] at hu
      exact absurd hu (by simp)
    · rw [getD_set_ne st.blocked v u true false (fun h => huv h.symm)] at hu
      exact hpre.empt u hu
  · intro pre a suf hdecomp x hreach
    have hdecomp' : pre ++ a :: suf = st.stack ++ [v] := hdecomp.symm
    rcases append_singleton_eq_cases hdecomp' with ⟨rfl, rfl, rfl⟩ | ⟨suf', rfl, hA⟩
    · rcases reach_set_true hbmv hreach with hr | rfl
      · rw [reach_of_empt hbmv hr]
        exact hvnotin
      · exact hvnotin
    · rcases reach_set_true hbmv hreach with hr | rfl
      · exact hpre.gstar pre a suf' hA x hr
      · intro hvpre
        exact hvnotin (hA.symm ▸ List.mem_append_left _ hvpre)

/-- Recording the current stack as a cycle preserves the core facts. -/
theorem jtrans_cycle {g : DiGraph} {s : Nat} {st : JSt} {v : Nat}
    (hcore : JCore g s st) (hs : s ∈ g.successors v)
    (htop : st.stack.getLast? = some v) :
    JCore g s { st with cycles := st.cycles ++ [st.stack] } := by
  refine ⟨hcore.blen, hcore.mlen, hcore.snodup, hcore.sbound, hcore.sge,
    hcore.shead, hcore.spath, ?_⟩
  intro c hc
  rcases List.mem_append.mp hc with h | h
  · exact hcore.cgood c h
  · simp at h
    subst h
    have hne : st.stack ≠ [] := by
      intro h; rw [h] at htop; simp at htop
    refine ⟨hne, hcore.snodup, hcore.spath, ?_⟩
    intro u h hu hh
    rw [htop] at hu
    rw [hcore.shead hne] at hh
    obtain rfl := Option.some.inj hu
    obtain rfl := Option.some.inj hh
    exact hs

/-- The cascading unblock at a successful `circuit` exit never unblocks a
node that is still on the stack after the pop, and preserves the pre-cap
facts. -/
theorem jtrans_found {g : DiGraph} {s : Nat} {st2 : JSt} {v : Nat} {A : List Nat}
    {fuel' : Nat} {bl : List Bool} {bm : List (List Nat)}
    (hcore : JCore g s st2) (hpre : JPre st2)
    (hstk : st2.stack = A ++ [v])
    (hub : unblock fuel' v st2.blocked st2.blocked_map = some (bl, bm)) :
    JCore g s { st2 with blocked := bl, blocked_map := bm, stack := A } ∧
    JPre { st2 with blocked := bl, blocked_map := bm, stack := A } := by
  obtain ⟨hlen1, hlen2, hshr1, hshr2, hsafe, hE⟩ :=
    unblock_contract fuel' v st2.blocked st2.blocked_map bl bm hub
  have hAdrop : st2.stack.dropLast = A := by rw [hstk]; simp
  have hreachv : ∀ x, Reach st2.blocked_map st2.blocked v x → x ∉ A :=
    hpre.gstar A v [] (by simpa using hstk)
  constructor
  · have h1 := jcore_dropLast hcore
    rw [hAdrop] at h1
    exact jcore_replace h1 hlen1 hlen2
  · refine ⟨?_, ?_, ?_⟩
    · intro x hx
      have hxstk : x ∈ st2.stack := by rw [hstk]; exact List.mem_append_left _ hx
      have : bl.getD x false = st2.blocked.getD x false :=
        hsafe x (fun hr => hreachv x hr hx)
      rw [this]
      exact hpre.sblocked x hxstk
    · exact hE hpre.empt
    · intro pre a suf hdecomp x hreach
      have hdecomp' : st2.stack = pre ++ a :: (suf ++ [v]) := by
        rw [hstk]
        have : A = pre ++ a :: suf := hdecomp
        rw [this]
        simp
      exact hpre.gstar pre a (suf ++ [v]) hdecomp' x
        (reach_mono hshr2 hshr1 hreach)

/-- The failure exit of `circuit`: inserting `v` into the dependency sets
of its blocked successors and popping preserves the pre-cap facts. -/
theorem jtrans_fail {g : DiGraph} {s : Nat} {st2 : JSt} {v : Nat} {A : List Nat}
    (hcore : JCore g s st2) (hpre : JPre st2)
    (hstk : st2.stack = A ++ [v])
    (hsucc : ∀ w ∈ g.successors v, s ≤ w → st2.blocked.getD w false = true) :
    JCore g s { st2 with
        blocked_map := blockAdd s v (g.successors v) st2.blocked_map, stack := A } ∧
    JPre { st2 with
        blocked_map := blockAdd s v (g.successors v) st2.blocked_map, stack := A } := by
  have hAdrop : st2.stack.dropLast = A := by rw [hstk]; simp
  have hreachv : ∀ x, Reach st2.blocked_map st2.blocked v x → x ∉ A :=
    hpre.gstar A v [] (by simpa using hstk)
  have hvblocked : st2.blocked.getD v false = true :=
    hpre.sblocked v (by rw [hstk]; simp)
  constructor
  · have h1 := jcore_dropLast hcore
    rw [hAdrop] at h1
    exact jcore_replace h1 rfl (blockAdd_length s v (g.successors v) st2.blocked_map)
  · refine ⟨?_, ?_, ?_⟩
    · intro x hx
      have hxstk : x ∈ st2.stack := by rw [hstk]; exact List.mem_append_left _ hx
      exact hpre.sblocked x hxstk
    · intro u hu
      have hskip : u ∈ g.successors v → ¬ s ≤ u := by
        intro hmem hsu
        rw [hsucc u hmem hsu] at hu
        exact absurd hu (by simp)
      rw [blockAdd_getD_skip s v (g.successors v) st2.blocked_map u hskip]
      exact hpre.empt u hu
    · intro pre a suf hdecomp x hreach
      have hdecomp' : st2.stack = pre ++ a :: (suf ++ [v]) := by
        rw [hstk]
        have : A = pre ++ a :: suf := hdecomp
        rw [this]
        simp
      rcases reach_blockAdd s v (g.successors v) st2.blocked_map st2.blocked hreach with
        hr | ⟨_, hr⟩
      · exact hpre.gstar pre a (suf ++ [v]) hdecomp' x hr
      · intro hxpre
        refine hreachv x hr ?_
        have : A = pre ++ a :: suf := hdecomp
        rw [this]
        exact List.mem_append_left _ hxpre

/-- Invariant preservation through the successor loop of `circuit`. The
contract hypothesis `hrec` is the induction hypothesis for the recursive
`circuit` calls at the next smaller fuel. -/
theorem circuitLoop_sound (g : DiGraph) (hg : g.Valid) (s k v : Nat)
    (hv : v < g.len)
    (recur : Nat → JSt → Option (JSt × Bool))
    (hrec : ∀ w st1 st2 f, w < g.len → s ≤ w →
        st1.blocked.getD w false = false →
        (st1.stack = [] → w = s) →
        (∀ u, st1.stack.getLast? = some u → w ∈ g.successors u) →
        JGood g s k st1 →
        recur w st1 = some (st2, f) →
        st2.stack = st1.stack ∧ JGood g s k st2 ∧
          st1.cycles.length ≤ st2.cycles.length ∧
          (f = false → (∀ x, st1.blocked.getD x false = true →
              st2.blocked.getD x false = true) ∧
            (¬ k ≤ st2.cycles.length → st2.blocked.getD w false = true))) :
    ∀ (ws : List Nat) (st : JSt) (found : Bool) (res : JSt × Bool × Bool),
      (∀ w ∈ ws, w ∈ g.successors v) →
      st.stack.getLast? = some v →
      JGood g s k st →
      circuitLoop recur s k s ws st found = some res →
      st.cycles.length ≤ res.1.cycles.length ∧
      (res.2.2 = false → res.1.stack = st.stack ∧ JGood g s k res.1 ∧
        (res.2.1 = false → found = false ∧
          (∀ x, st.blocked.getD x false = true →
            res.1.blocked.getD x false = true) ∧
          (¬ k ≤ res.1.cycles.length → ∀ w ∈ ws, s ≤ w →
            res.1.blocked.getD w false = true))) ∧
      (res.2.2 = true → res.2.1 = true ∧ k ≤ res.1.cycles.length ∧
        res.1.stack = st.stack.dropLast ∧ JGood g s k res.1) := by
  intro ws
  induction ws with
  | nil =>
    intro st found res _ _ hgood hrun
    simp only [circuitLoop] at hrun
    obtain rfl := Option.some.inj hrun
    refine ⟨le_refl _, fun _ => ⟨rfl, hgood, fun hf => ⟨hf, fun x h => h, fun _ w hw => ?_⟩⟩,
      fun h => by simp at h⟩
    simp at hw
  | cons w rest ihws =>
    intro st found res hws htop hgood hrun
    simp only [circuitLoop] at hrun
    split at hrun
    · -- w < s : skipped
      obtain ⟨hle, hne, he⟩ := ihws st found res (fun x hx => hws x (by simp [hx]))
        htop hgood hrun
      rename_i hwlt
      refine ⟨hle, fun h2 => ?_, he⟩
      obtain ⟨h1, h2', h3⟩ := hne h2
      refine ⟨h1, h2', fun hf => ?_⟩
      obtain ⟨hf0, hmono, hlc4⟩ := h3 hf
      refine ⟨hf0, hmono, fun hcap x hx hsx => ?_⟩
      rcases List.mem_cons.mp hx with rfl | hx'
      · omega
      · exact hlc4 hcap x hx' hsx
    · rename_i hwge
      split at hrun
      · -- w = s : a cycle is recorded
        rename_i hweq
        have hwsucc : s ∈ g.successors v := hweq ▸ hws w (by simp)
        have hcore1 := jtrans_cycle hgood.1 hwsucc htop
        split at hrun
        · -- cap reached: early exit
          rename_i hcap
          obtain rfl := Option.some.inj hrun
          refine ⟨by simp, fun h => by simp at h, fun _ => ?_⟩
          refine ⟨rfl, by simpa using hcap, by simp, ?_⟩
          exact ⟨jcore_dropLast hcore1, Or.inl (by simpa using hcap)⟩
        · -- cap not reached: continue with found = true
          rename_i hcap
          have hgood1 : JGood g s k { st with cycles := st.cycles ++ [st.stack] } := by
            refine ⟨hcore1, ?_⟩
            rcases hgood.2 with hc | hp
            · exact Or.inl (by simp; omega)
            · exact Or.inr ⟨hp.sblocked, hp.empt, hp.gstar⟩
          obtain ⟨hle, hne, he⟩ := ihws { st with cycles := st.cycles ++ [st.stack] }
            true res (fun x hx => hws x (by simp [hx])) htop hgood1 hrun
          refine ⟨le_trans (by simp) hle, fun h2 => ?_, he⟩
          obtain ⟨h1, h2', h3⟩ := hne h2
          refine ⟨h1, h2', fun hf => ?_⟩
          obtain ⟨hf0, _, _⟩ := h3 hf
          exact absurd hf0 (by simp)
      · -- w ≥ s, w ≠ s
        rename_i hwne
        split at hrun
        · -- w blocked: skipped
          rename_i hwbl
          obtain ⟨hle, hne, he⟩ := ihws st found res (fun x hx => hws x (by simp [hx]))
            htop hgood hrun
          refine ⟨hle, fun h2 => ?_, he⟩
          obtain ⟨h1, h2', h3⟩ := hne h2
          refine ⟨h1, h2', fun hf => ?_⟩
          obtain ⟨hf0, hmono, hlc4⟩ := h3 hf
          refine ⟨hf0, hmono, fun hcap x hx hsx => ?_⟩
          rcases List.mem_cons.mp hx with rfl | hx'
          · exact hmono x hwbl
          · exact hlc4 hcap x hx' hsx
        · -- w unblocked: recursive call
          rename_i hwbl
          match hcall : recur w st with
          | none => rw [hcall] at hrun; exact absurd hrun (by simp)
          | some (stM, f) =>
            rw [hcall] at hrun
            have hwlen : w < g.len := hg v hv w (hws w (by simp))
            have hwge' : s ≤ w := by omega
            have hstkne : st.stack ≠ [] := by
              intro h; rw [h] at htop; simp at htop
            have hedgeM : ∀ u, st.stack.getLast? = some u → w ∈ g.successors u := by
              intro u hu
              rw [htop] at hu
              obtain rfl := Option.some.inj hu
              exact hws w (by simp)
            obtain ⟨hstM, hgoodM, hleM, hfM⟩ := hrec w st stM f hwlen hwge'
              (by simpa using hwbl) (fun h => absurd h hstkne)
              hedgeM hgood hcall
            obtain ⟨hle, hne, he⟩ := ihws stM (found || f) res
              (fun x hx => hws x (by simp [hx])) (by rw [hstM]; exact htop)
              hgoodM hrun
            rw [hstM] at he
            refine ⟨le_trans hleM hle, fun h2 => ?_, he⟩
            obtain ⟨h1, h2', h3⟩ := hne h2
            refine ⟨h1.trans hstM, h2', fun hf => ?_⟩
            obtain ⟨hf0, hmono, hlc4⟩ := h3 hf
            have hff : found = false ∧ f = false := by
              rcases Bool.or_eq_false_iff.mp hf0 with ⟨ha, hb⟩
              exact ⟨ha, hb⟩
            obtain ⟨hmonoC, hblkw⟩ := hfM hff.2
            refine ⟨hff.1, fun x hx => hmono x (hmonoC x hx), fun hcap x hx hsx => ?_⟩
            rcases List.mem_cons.mp hx with rfl | hx'
            · refine hmono x (hblkw ?_)
              intro hkM
              exact hcap (le_trans hkM hle)
            · exact hlc4 hcap x hx' hsx

theorem getD_set_true_mono (bl : List Bool) (v x : Nat)
    (h : bl.getD x false = true) : (bl.set v true).getD x false = true := by
  by_cases hxv : x = v
  · subst hxv
    by_cases hlen : x < bl.length
    · exact getD_set_self bl x true false hlen
    · rwa [List.set_eq_of_length_le (by omega)]
  · rwa [getD_set_ne bl v x true false (fun h => hxv h.symm)]

/-- Full invariant preservation for `circuit` when start and minimum node
coincide (as in every call made by `enumerate_cycles`): the stack is
restored, the invariant is preserved, the recorded cycles only grow, and
on a fruitless exit nothing is unblocked and the entered node stays
blocked. -/
theorem circuit_sound (g : DiGraph) (hg : g.Valid) (s k : Nat) :
    ∀ (fuel v : Nat) (st st' : JSt) (f : Bool),
      v < g.len → s ≤ v →
      st.blocked.getD v false = false →
      (st.stack = [] → v = s) →
      (∀ u, st.stack.getLast? = some u → v ∈ g.successors u) →
      JGood g s k st →
      circuit g s k s fuel v st = some (st', f) →
      st'.stack = st.stack ∧ JGood g s k st' ∧
        st.cycles.length ≤ st'.cycles.length ∧
        (f = false → (∀ x, st.blocked.getD x false = true →
            st'.blocked.getD x false = true) ∧
          (¬ k ≤ st'.cycles.length → st'.blocked.getD v false = true)) := by
  intro fuel
  induction fuel with
  | zero => intro v st st' f _ _ _ _ _ _ h; exact absurd h (by simp [circuit])
  | succ fuel' ih =>
    intro v st st' f hv hsv hbv hroot hedge hgood hrun
    simp only [circuit] at hrun
    split at hrun
    · -- cap already reached at entry: state unchanged
      rename_i hcap
      obtain ⟨rfl, rfl⟩ := Prod.mk.inj (Option.some.inj hrun)
      exact ⟨rfl, hgood, le_refl _,
        fun _ => ⟨fun x h => h, fun hnc => absurd hcap hnc⟩⟩
    · rename_i hcap
      have hpre : JPre st := by
        rcases hgood.2 with hc | hp
        · exact absurd hc hcap
        · exact hp
      obtain ⟨hvnot, hcore1, hpre1⟩ := jtrans_push hgood.1 hpre hv hsv hbv hroot hedge
      have hgood1 : JGood g s k
          { st with stack := st.stack ++ [v], blocked := st.blocked.set v true } :=
        ⟨hcore1, Or.inr hpre1⟩
      have htop1 : (st.stack ++ [v]).getLast? = some v := by simp
      split at hrun
      · exact absurd hrun (by simp)
      · -- early capped exit from the loop
        rename_i st2 found hloop
        obtain ⟨rfl, rfl⟩ := Prod.mk.inj (Option.some.inj hrun)
        obtain ⟨hle, _, he⟩ := circuitLoop_sound g hg s k v hv _
          (fun w a b c => ih w a b c) (g.successors v)
          { st with stack := st.stack ++ [v], blocked := st.blocked.set v true }
          false (st2, found, true) (fun _ h => h) htop1 hgood1 hloop
        obtain ⟨hfd, hcap2, hstk2, hgood2⟩ := he rfl
        have hfd' : found = true := hfd
        have hstk2' : st2.stack = st.stack := by
          have h1 : st2.stack = (st.stack ++ [v]).dropLast := hstk2
          rw [h1]
          simp
        have hgood2' : JGood g s k st2 := hgood2
        have hle' : st.cycles.length ≤ st2.cycles.length := hle
        refine ⟨hstk2', hgood2', hle', fun hf => ?_⟩
        rw [hfd'] at hf
        exact absurd hf (by simp)
      · -- loop finished normally
        rename_i st2 found hloop
        obtain ⟨hle, hne, _⟩ := circuitLoop_sound g hg s k v hv _
          (fun w a b c => ih w a b c) (g.successors v)
          { st with stack := st.stack ++ [v], blocked := st.blocked.set v true }
          false (st2, found, false) (fun _ h => h) htop1 hgood1 hloop
        obtain ⟨hstk2, hgood2, hff⟩ := hne rfl
        have hstk2' : st2.stack = st.stack ++ [v] := hstk2
        have hgood2' : JGood g s k st2 := hgood2
        have hle' : st.cycles.length ≤ st2.cycles.length := hle
        have hdrop : st2.stack.dropLast = st.stack := by rw [hstk2']; simp
        split at hrun
        · -- a cycle was found below: cascading unblock, then pop
          rename_i hfd
          split at hrun
          · exact absurd hrun (by simp)
          · rename_i bl bm hub
            obtain ⟨rfl, rfl⟩ := Prod.mk.inj (Option.some.inj hrun)
            have hrec2 : ({ st2 with blocked := bl, blocked_map := bm, stack := st2.stack.dropLast } : JSt) = { st2 with blocked := bl, blocked_map := bm, stack := st.stack } := by
              rw [hdrop]
            rw [hrec2]
            obtain ⟨hlen1, hlen2, _, _, _, _⟩ :=
              unblock_contract fuel' v st2.blocked st2.blocked_map bl bm hub
            refine ⟨rfl, ?_, hle', fun hf => ?_⟩
            · rcases hgood2'.2 with hc | hp2
              · have h1 := jcore_dropLast hgood2'.1
                rw [hdrop] at h1
                exact ⟨jcore_replace h1 hlen1 hlen2, Or.inl hc⟩
              · obtain ⟨hc2, hp2'⟩ := jtrans_found hgood2'.1 hp2 hstk2' hub
                exact ⟨hc2, Or.inr hp2'⟩
            · rw [hfd] at hf
              exact absurd hf (by simp)
        · -- nothing found: register v in the dependency sets, then pop
          rename_i hfd
          have hfd' : found = false := by
            cases found with
            | true => exact absurd rfl hfd
            | false => rfl
          subst hfd'
          obtain ⟨rfl, rfl⟩ := Prod.mk.inj (Option.some.inj hrun)
          obtain ⟨_, hmono, hlc4⟩ := hff rfl
          have hmono2 : ∀ x, (st.blocked.set v true).getD x false = true →
              st2.blocked.getD x false = true := hmono
          have hlc42 : ¬ k ≤ st2.cycles.length → ∀ w ∈ g.successors v, s ≤ w →
              st2.blocked.getD w false = true := hlc4
          have hrec2 : ({ st2 with blocked_map := blockAdd s v (g.successors v) st2.blocked_map, stack := st2.stack.dropLast } : JSt) = { st2 with blocked_map := blockAdd s v (g.successors v) st2.blocked_map, stack := st.stack } := by
            rw [hdrop]
          rw [hrec2]
          have hmono' : ∀ x, st.blocked.getD x false = true →
              st2.blocked.getD x false = true :=
            fun x hx => hmono2 x (getD_set_true_mono st.blocked v x hx)
          have hvbl2 : st2.blocked.getD v false = true := by
            refine hmono2 v ?_
            exact getD_set_self st.blocked v true false (by rw [hgood.1.blen]; omega)
          refine ⟨rfl, ?_, hle', fun _ => ⟨fun x hx => hmono' x hx, fun _ => hvbl2⟩⟩
          by_cases hcap2 : k ≤ st2.cycles.length
          · have h1 := jcore_dropLast hgood2'.1
            rw [hdrop] at h1
            exact ⟨jcore_replace h1 rfl
              (blockAdd_length s v (g.successors v) st2.blocked_map), Or.inl hcap2⟩
          · have hp2 : JPre st2 := by
              rcases hgood2'.2 with hc | hp
              · exact absurd hc hcap2
              · exact hp
            obtain ⟨hc2, hp2'⟩ := jtrans_fail hgood2'.1 hp2 hstk2' (hlc42 hcap2)
            exact ⟨hc2, Or.inr hp2'⟩

/-- Across rounds, the stack returns to empty and every recorded cycle is
elementary. -/
theorem enumRounds_elem (g : DiGraph) (hg : g.Valid) (k fuel : Nat) :
    ∀ (starts : List Nat) (st st' : JSt),
      (∀ s ∈ starts, s < g.len) →
      st.stack = [] →
      (∀ c ∈ st.cycles, ElemCycle g c) →
      enumRounds g k fuel starts st = some st' →
      st'.stack = [] ∧ ∀ c ∈ st'.cycles, ElemCycle g c := by
  intro starts
  induction starts with
  | nil =>
    intro st st' _ hstk hcyc hrun
    simp only [enumRounds] at hrun
    obtain rfl := Option.some.inj hrun
    exact ⟨hstk, hcyc⟩
  | cons s rest ih =>
    intro st st' hs hstk hcyc hrun
    simp only [enumRounds] at hrun
    split at hrun
    · obtain rfl := Option.some.inj hrun
      exact ⟨hstk, hcyc⟩
    · split at hrun
      · exact absurd hrun (by simp)
      · rename_i st2 f hcirc
        have hslen : s < g.len := hs s (by simp)
        have hgood1 : JGood g s k
            { st with blocked := List.replicate g.len false,
                      blocked_map := List.replicate g.len [] } := by
          refine ⟨⟨by simp, by simp, by rw [hstk]; exact List.nodup_nil, ?_, ?_, ?_, ?_, hcyc⟩,
            Or.inr ⟨?_, ?_, ?_⟩⟩
          · intro x hx; rw [hstk] at hx; exact absurd hx (List.not_mem_nil _)
          · intro x hx; rw [hstk] at hx; exact absurd hx (List.not_mem_nil _)
          · intro hne; rw [hstk] at hne; exact absurd rfl hne
          · show EdgePath g st.stack
            rw [hstk]; exact List.chain'_nil
          · intro x hx; rw [hstk] at hx; exact absurd hx (List.not_mem_nil _)
          · intro u _
            by_cases hu : u < g.len
            · exact getD_replicate_lt g.len u [] [] hu
            · exact getD_of_len_le _ u [] (by simp; omega)
          · intro pre a suf hdec
            rw [hstk] at hdec
            exact absurd hdec.symm (by simp)
        obtain ⟨hstk2, hgood2, _, _⟩ := circuit_sound g hg s k fuel s
          { st with blocked := List.replicate g.len false,
                    blocked_map := List.replicate g.len [] } st2 f hslen (le_refl s)
          (by by_cases hu : s < g.len
              · exact getD_replicate_lt g.len s false false hu
              · exact absurd hslen hu)
          (fun _ => rfl)
          (by intro u hu; rw [hstk] at hu; simp at hu)
          hgood1 hcirc
        refine ih st2 st' (fun x hx => hs x (by simp [hx])) (by rw [hstk2]; exact hstk)
          (fun c hc => hgood2.1.cgood c hc) hrun

/-- C5 main statement: every list returned by `enumerate_cycles` is an
elementary cycle of the graph. -/
theorem enumerate_cycles_elem_aux (g : DiGraph) (hg : g.Valid) (k fuel : Nat)
    (cs : List (List Nat)) (h : enumerate_cycles g k fuel = some cs) :
    ∀ c ∈ cs, ElemCycle g c := by
  simp only [enumerate_cycles] at h
  split at h
  · obtain rfl := Option.some.inj h
    intro c hc
    exact absurd hc (List.not_mem_nil _)
  · split at h
    · exact absurd h (by simp)
    · rename_i st hrounds
      obtain rfl := Option.some.inj h
      exact (enumRounds_elem g hg k fuel (List.range g.len) _ st
        (fun x hx => List.mem_range.mp hx) rfl (by intro c hc; simp at hc) hrounds).2

theorem count_set_false : ∀ (bl : List Bool) (i : Nat),
    (bl.set i false).count true + (if bl.getD i false = true then 1 else 0) =
      bl.count true := by
  intro bl
  induction bl with
  | nil => intro i; simp [List.set]
  | cons b t ih =>
    intro i
    cases i with
    | zero =>
      simp only [List.set, List.getD_cons_zero]
      cases b with
      | true => simp [List.count_cons]
      | false => simp [List.count_cons]
    | succ j =>
      simp only [List.set, List.getD_cons_succ]
      have := ih j
      simp only [List.getD_eq_getElem?_getD] at this
      cases b with
      | true => simp [List.count_cons, List.getD_eq_getElem?_getD]; omega
      | false => simp [List.count_cons, List.getD_eq_getElem?_getD]; omega

theorem count_set_false_le (bl : List Bool) (i : Nat) :
    (bl.set i false).count true ≤ bl.count true := by
  have := count_set_false bl i
  omega

theorem nodup_bound_length (l : List Nat) (n : Nat) (hnd : l.Nodup)
    (hb : ∀ x ∈ l, x < n) : l.length ≤ n := by
  classical
  have h1 : l.toFinset ⊆ Finset.range n := by
    intro x hx
    simp at hx ⊢
    exact hb x hx
  have h2 := Finset.card_le_card h1
  rwa [List.toFinset_card_of_nodup hnd, Finset.card_range] at h2

theorem unblockGo_total (fuel' : Nat)
    (ih : ∀ (u : Nat) (bl : List Bool) (bm : List (List Nat)),
      (bl.set u false).count true + 2 ≤ fuel' → ∃ bl' bm',
        unblock fuel' u bl bm = some (bl', bm') ∧
        bl'.count true ≤ (bl.set u false).count true) :
    ∀ (ws : List Nat) (bl : List Bool) (bm : List (List Nat)),
      bl.count true + 1 ≤ fuel' →
      ∃ bl' bm',
        unblockGo (fun w b m => unblock fuel' w b m) ws bl bm = some (bl', bm') ∧
        bl'.count true ≤ bl.count true := by
  intro ws
  induction ws with
  | nil =>
    intro bl bm _
    exact ⟨bl, bm, rfl, le_refl _⟩
  | cons w rest ihws =>
    intro bl bm hfuel
    simp only [unblockGo]
    split
    · rename_i hbw
      have hcount : (bl.set w false).count true + 1 = bl.count true := by
        have := count_set_false bl w
        rw [if_pos hbw] at this
        omega
      obtain ⟨blM, bmM, hM, hMc⟩ := ih w bl bm (by omega)
      rw [hM]
      obtain ⟨bl', bm', h', h'c⟩ := ihws blM bmM (by omega)
      exact ⟨bl', bm', h', by omega⟩
    · exact ihws bl bm (by omega)

theorem unblock_total : ∀ (fuel u : Nat) (bl : List Bool) (bm : List (List Nat)),
    (bl.set u false).count true + 2 ≤ fuel →
    ∃ bl' bm', unblock fuel u bl bm = some (bl', bm') ∧
      bl'.count true ≤ (bl.set u false).count true := by
  intro fuel
  induction fuel with
  | zero => intro u bl bm h; omega
  | succ fuel' ih =>
    intro u bl bm hfuel
    simp only [unblock]
    exact unblockGo_total fuel' ih (bm.getD u []) (bl.set u false) (bm.set u [])
      (by omega)

theorem circuitLoop_total (g : DiGraph) (hg : g.Valid) (s k v fuel' : Nat)
    (hv : v < g.len)
    (ihT : ∀ (w : Nat) (st : JSt), w < g.len → s ≤ w →
      st.blocked.getD w false = false → (st.stack = [] → w = s) →
      (∀ u, st.stack.getLast? = some u → w ∈ g.successors u) →
      JGood g s k st →
      (g.len + 1 - st.stack.length) + (g.len + 1) ≤ fuel' →
      ∃ res, circuit g s k s fuel' w st = some res) :
    ∀ (ws : List Nat) (st : JSt) (found : Bool),
      (∀ w ∈ ws, w ∈ g.successors v) →
      st.stack.getLast? = some v →
      JGood g s k st →
      (g.len + 1 - st.stack.length) + (g.len + 1) ≤ fuel' →
      ∃ res, circuitLoop (fun w stw => circuit g s k s fuel' w stw) s k s ws st found =
        some res := by
  intro ws
  induction ws with
  | nil =>
    intro st found _ _ _ _
    exact ⟨(st, found, false), rfl⟩
  | cons w rest ihws =>
    intro st found hws htop hgood hfuel
    simp only [circuitLoop]
    split
    · exact ihws st found (fun x hx => hws x (by simp [hx])) htop hgood hfuel
    · rename_i hwge
      split
      · rename_i hweq
        split
        · exact ⟨_, rfl⟩
        · rename_i hcap
          have hwsucc : s ∈ g.successors v := hweq ▸ hws w (by simp)
          have hcore1 := jtrans_cycle hgood.1 hwsucc htop
          have hgood1 : JGood g s k { st with cycles := st.cycles ++ [st.stack] } := by
            refine ⟨hcore1, ?_⟩
            rcases hgood.2 with hc | hp
            · exact Or.inl (by simp; omega)
            · exact Or.inr ⟨hp.sblocked, hp.empt, hp.gstar⟩
          exact ihws { st with cycles := st.cycles ++ [st.stack] } true
            (fun x hx => hws x (by simp [hx])) htop hgood1 hfuel
      · rename_i hwne
        split
        · exact ihws st found (fun x hx => hws x (by simp [hx])) htop hgood hfuel
        · rename_i hwbl
          have hwlen : w < g.len := hg v hv w (hws w (by simp))
          have hstkne : st.stack ≠ [] := by
            intro h; rw [h] at htop; simp at htop
          have hedgeM : ∀ u, st.stack.getLast? = some u → w ∈ g.successors u := by
            intro u hu
            rw [htop] at hu
            obtain rfl := Option.some.inj hu
            exact hws w (by simp)
          obtain ⟨⟨stM, f⟩, hcall⟩ := ihT w st hwlen (by omega) (by simpa using hwbl)
            (fun h => absurd h hstkne) hedgeM hgood hfuel
          rw [hcall]
          obtain ⟨hstM, hgoodM, _, _⟩ := circuit_sound g hg s k fuel' w st stM f
            hwlen (by omega) (by simpa using hwbl) (fun h => absurd h hstkne)
            hedgeM hgood hcall
          exact ihws stM (found || f) (fun x hx => hws x (by simp [hx]))
            (by rw [hstM]; exact htop) hgoodM (by rw [hstM]; exact hfuel)

theorem circuit_total (g : DiGraph) (hg : g.Valid) (s k : Nat) :
    ∀ (fuel v : Nat) (st : JSt),
      v < g.len → s ≤ v →
      st.blocked.getD v false = false →
      (st.stack = [] → v = s) →
      (∀ u, st.stack.getLast? = some u → v ∈ g.successors u) →
      JGood g s k st →
      (g.len + 1 - st.stack.length) + (g.len + 1) ≤ fuel →
      ∃ res, circuit g s k s fuel v st = some res := by
  intro fuel
  induction fuel with
  | zero =>
    intro v st _ _ _ _ _ _ hfuel
    omega
  | succ fuel' ih =>
    intro v st hv hsv hbv hroot hedge hgood hfuel
    simp only [circuit]
    split
    · exact ⟨_, rfl⟩
    · rename_i hcap
      have hpre : JPre st := by
        rcases hgood.2 with hc | hp
        · exact absurd hc hcap
        · exact hp
      obtain ⟨hvnot, hcore1, hpre1⟩ := jtrans_push hgood.1 hpre hv hsv hbv hroot hedge
      have hgood1 : JGood g s k
          { st with stack := st.stack ++ [v], blocked := st.blocked.set v true } :=
        ⟨hcore1, Or.inr hpre1⟩
      have htop1 : (st.stack ++ [v]).getLast? = some v := by simp
      have hL : st.stack.length + 1 ≤ g.len := by
        have := nodup_bound_length (st.stack ++ [v]) g.len hcore1.snodup hcore1.sbound
        simpa using this
      obtain ⟨⟨st2, found, early⟩, hloop⟩ := circuitLoop_total g hg s k v fuel' hv
        (fun w stw a b c d e f2 h => ih w stw a b c d e f2 h) (g.successors v)
        { st with stack := st.stack ++ [v], blocked := st.blocked.set v true }
        false (fun _ h => h) htop1 hgood1 (by simp; omega)
      rw [hloop]
      cases early with
      | true => exact ⟨_, rfl⟩
      | false =>
        cases found with
        | false => exact ⟨_, rfl⟩
        | true =>
          obtain ⟨_, hne, _⟩ := circuitLoop_sound g hg s k v hv _
            (fun w a b c => circuit_sound g hg s k fuel' w a b c) (g.successors v)
            { st with stack := st.stack ++ [v], blocked := st.blocked.set v true }
            false (st2, true, false) (fun _ h => h) htop1 hgood1 hloop
          obtain ⟨_, hgood2, _⟩ := hne rfl
          have hgood2' : JGood g s k st2 := hgood2
          have hcnt : (st2.blocked.set v false).count true + 2 ≤ fuel' := by
            have h1 : (st2.blocked.set v false).count true ≤ st2.blocked.count true :=
              count_set_false_le st2.blocked v
            have h2 : st2.blocked.count true ≤ st2.blocked.length :=
              List.count_le_length _ _
            have h3 : st2.blocked.length = g.len := hgood2'.1.blen
            omega
          obtain ⟨bl, bm, hub, _⟩ := unblock_total fuel' v st2.blocked
            st2.blocked_map hcnt
          simp only []
          rw [if_pos trivial]
          rw [hub]
          exact ⟨_, rfl⟩

/-- The reset state at the start of a round satisfies the invariant. -/
theorem jgood_reset (g : DiGraph) (s k : Nat) (st : JSt)
    (hstk : st.stack = []) (hcyc : ∀ c ∈ st.cycles, ElemCycle g c) :
    JGood g s k { st with blocked := List.replicate g.len false,
                          blocked_map := List.replicate g.len [] } := by
  refine ⟨⟨by simp, by simp, by rw [hstk]; exact List.nodup_nil, ?_, ?_, ?_, ?_, hcyc⟩,
    Or.inr ⟨?_, ?_, ?_⟩⟩
  · intro x hx; rw [hstk] at hx; exact absurd hx (List.not_mem_nil _)
  · intro x hx; rw [hstk] at hx; exact absurd hx (List.not_mem_nil _)
  · intro hne; rw [hstk] at hne; exact absurd rfl hne
  · show EdgePath g st.stack
    rw [hstk]; exact List.chain'_nil
  · intro x hx; rw [hstk] at hx; exact absurd hx (List.not_mem_nil _)
  · intro u _
    by_cases hu : u < g.len
    · exact getD_replicate_lt g.len u [] [] hu
    · exact getD_of_len_le _ u [] (by simp; omega)
  · intro pre a suf hdec
    rw [hstk] at hdec
    exact absurd hdec.symm (by simp)

theorem enumRounds_total (g : DiGraph) (hg : g.Valid) (k fuel : Nat)
    (hfuel : 2 * g.len + 2 ≤ fuel) :
    ∀ (starts : List Nat) (st : JSt),
      (∀ s ∈ starts, s < g.len) →
      st.stack = [] →
      (∀ c ∈ st.cycles, ElemCycle g c) →
      ∃ st', enumRounds g k fuel starts st = some st' := by
  intro starts
  induction starts with
  | nil => intro st _ _ _; exact ⟨st, rfl⟩
  | cons s rest ih =>
    intro st hs hstk hcyc
    simp only [enumRounds]
    split
    · exact ⟨st, rfl⟩
    · rename_i hcap
      have hslen : s < g.len := hs s (by simp)
      have hgood1 := jgood_reset g s k st hstk hcyc
      have hbs : (List.replicate g.len false).getD s false = false := by
        by_cases hu : s < g.len
        · exact getD_replicate_lt g.len s false false hu
        · exact absurd hslen hu
      obtain ⟨⟨st2, f⟩, hcall⟩ := circuit_total g hg s k fuel s
        { st with blocked := List.replicate g.len false,
                  blocked_map := List.replicate g.len [] }
        hslen (le_refl s) hbs (fun _ => rfl)
        (by intro u hu; rw [hstk] at hu; simp at hu)
        hgood1 (by rw [hstk]; simp; omega)
      rw [hcall]
      obtain ⟨hstk2, hgood2, _, _⟩ := circuit_sound g hg s k fuel s
        { st with blocked := List.replicate g.len false,
                  blocked_map := List.replicate g.len [] } st2 f hslen (le_refl s)
        hbs (fun _ => rfl)
        (by intro u hu; rw [hstk] at hu; simp at hu)
        hgood1 hcall
      exact ih st2 (fun x hx => hs x (by simp [hx])) (by rw [hstk2]; exact hstk)
        (fun c hc => hgood2.1.cgood c hc)

theorem enumerate_cycles_total_aux (g : DiGraph) (hg : g.Valid) (k fuel : Nat)
    (hfuel : 2 * g.len + 2 ≤ fuel) :
    ∃ cs, enumerate_cycles g k fuel = some cs := by
  simp only [enumerate_cycles]
  split
  · exact ⟨[], rfl⟩
  · obtain ⟨st', hrun⟩ := enumRounds_total g hg k fuel hfuel (List.range g.len)
      ⟨List.replicate g.len false, List.replicate g.len [], [], []⟩
      (fun x hx => List.mem_range.mp hx) rfl (by intro c hc; simp at hc)
    rw [hrun]
    exact ⟨st'.cycles, rfl⟩

/-- C5: for every valid graph and every cap, every sequence returned by
`enumerate_cycles` is an elementary cycle of the graph: consecutive
nodes are joined by directed edges, an edge leads from the last node
back to the first, and no node index occurs twice. -/
theorem enumerate_cycles_elementary (g : DiGraph) (hval : g.Valid)
    (maxCy fuel : Nat) (cs : List (List Nat)) (c : List Nat)
    (h : enumerate_cycles g maxCy fuel = some cs) (hc : c ∈ cs) :
    c ≠ [] ∧ c.Nodup ∧ EdgePath g c ∧
      ∀ u hd, c.getLast? = some u → c.head? = some hd → hd ∈ g.successors u :=
  enumerate_cycles_elem_aux g hval maxCy fuel cs h c hc

/-- C5 witness: the theorem applied to the diamond graph and its first
returned cycle. -/
theorem enumerate_cycles_elementary_witness :
    ([0, 1, 3] : List Nat) ≠ [] ∧ ([0, 1, 3] : List Nat).Nodup ∧
      EdgePath ⟨[[1, 2], [3], [3], [0]]⟩ [0, 1, 3] ∧
      ∀ u hd, ([0, 1, 3] : List Nat).getLast? = some u →
        ([0, 1, 3] : List Nat).head? = some hd →
        hd ∈ DiGraph.successors ⟨[[1, 2], [3], [3], [0]]⟩ u :=
  enumerate_cycles_elementary ⟨[[1, 2], [3], [3], [0]]⟩ (by decide) 100 30
    [[0, 1, 3], [0, 2, 3]] [0, 1, 3] (by decide) (by decide)

/-- C7: both algorithms are total over the documented input domain: on a
valid graph `tarjan_scc` always returns a result, and for every cap
`enumerate_cycles` returns a result whenever its fuel is at least
`2 * g.len + 2` (the `circuit` recursion depth is bounded by the node
count because every recursion enters a node it has just blocked, so this
bound always suffices and the result no longer depends on the fuel). -/
theorem cycles_algorithms_total (g : DiGraph) (hval : g.Valid) :
    (∃ r, tarjan_scc g = some r) ∧
      ∀ maxCy fuel, 2 * g.len + 2 ≤ fuel →
        ∃ cs, enumerate_cycles g maxCy fuel = some cs ∧
          enumerate_cycles g maxCy (2 * g.len + 2) = some cs := by
  constructor
  · simp only [tarjan_scc]
    split
    · exact ⟨_, rfl⟩
    · obtain ⟨st', hrun, _, _, _, _⟩ := tarjanMain_sound g hval
        (List.range g.len) (tarjanInit g.len) (tarjanInit_inv g) rfl
        (fun x hx => List.mem_range.mp hx)
      rw [hrun]
      exact ⟨_, rfl⟩
  · intro maxCy fuel hfuel
    obtain ⟨cs, hcs⟩ := enumerate_cycles_total_aux g hval maxCy (2 * g.len + 2)
      (le_refl _)
    exact ⟨cs, enumerate_cycles_mono g maxCy _ fuel cs hfuel hcs, hcs⟩

/-- C7 witness: the theorem applied to the two-node cycle graph with cap 5
and fuel 6. -/
theorem cycles_algorithms_total_witness :
    (∃ r, tarjan_scc ⟨[[1], [0]]⟩ = some r) ∧
      ∃ cs, enumerate_cycles ⟨[[1], [0]]⟩ 5 6 = some cs ∧
        enumerate_cycles ⟨[[1], [0]]⟩ 5 6 = some cs :=
  ⟨(cycles_algorithms_total ⟨[[1], [0]]⟩ (by decide)).1,
   (cycles_algorithms_total ⟨[[1], [0]]⟩ (by decide)).2 5 6 (by decide)⟩

/-- C3 counterexample: on the one-node graph whose self-loop edge is
listed twice in the successor sequence, the only elementary cycle is
`[0]` (so T = 1), yet with `max_cycles = 5 ≥ T` the enumerator returns
the cycle twice — 2 cycles, not exactly T — with `truncated = false`. -/
theorem enumerate_cycles_repeats_cycle_cex :
    enumerate_cycles_with_info ⟨[[0, 0]]⟩ 5 10 = some ⟨[[0], [0]], false, 2⟩ ∧
      (∀ c, ElemCycle ⟨[[0, 0]]⟩ c ↔ c = [0]) ∧
      ([[0], [0]] : List (List Nat)).length ≠ 1 := by
  refine ⟨by decide, ?_, by decide⟩
  intro c
  constructor
  · rintro ⟨hne, hnd, hch, hcl⟩
    cases c with
    | nil => exact absurd rfl hne
    | cons a rest =>
      cases rest with
      | nil =>
        have hcl' := hcl a a (by simp) (by simp)
        have ha : a = 0 := by
          by_contra hna
          have hempty : DiGraph.successors ⟨[[0, 0]]⟩ a = [] := by
            cases a with
            | zero => exact absurd rfl hna
            | succ n => rfl
          rw [hempty] at hcl'
          exact absurd hcl' (List.not_mem_nil _)
        rw [ha]
      | cons b rest2 =>
        exfalso
        have hch' : List.Chain' (fun u w => w ∈ DiGraph.successors ⟨[[0, 0]]⟩ u)
            (a :: b :: rest2) := hch
        have hb : b ∈ DiGraph.successors ⟨[[0, 0]]⟩ a :=
          (List.chain'_cons.mp hch').1
        have ha : a = 0 := by
          by_contra hna
          have hempty : DiGraph.successors ⟨[[0, 0]]⟩ a = [] := by
            cases a with
            | zero => exact absurd rfl hna
            | succ n => rfl
          rw [hempty] at hb
          exact absurd hb (List.not_mem_nil _)
        subst ha
        have hb0 : b = 0 := by
          have hs : DiGraph.successors ⟨[[0, 0]]⟩ 0 = [0, 0] := rfl
          rw [hs] at hb
          simpa using hb
        subst hb0
        simp at hnd
  · rintro rfl
    refine ⟨by simp, by simp, ?_, ?_⟩
    · show List.Chain' _ [0]
      simp
    · intro u hd hu hh
      simp at hu hh
      subst hu
      subst hh
      decide

/-- C3: on every successful run, `truncated` is literally
`count ≥ max_cycles` and `count` is the length of the returned cycle
list — the first clause of the claim; the exactly-T clause of the claim
is refuted by `enumerate_cycles_repeats_cycle_cex`. -/
theorem enumerate_cycles_with_info_truncated_iff (g : DiGraph) (k fuel : Nat)
    (r : CycleEnumerationResult)
    (h : enumerate_cycles_with_info g k fuel = some r) :
    (r.truncated = true ↔ k ≤ r.count) ∧ r.count = r.cycles.length := by
  simp only [enumerate_cycles_with_info] at h
  split at h
  · exact absurd h (by simp)
  · rename_i cs hcs
    obtain rfl := Option.some.inj h
    refine ⟨?_, rfl⟩
    simp

/-- C3 witness: the theorem applied to the duplicated self-loop graph at
cap 5. -/
theorem enumerate_cycles_with_info_truncated_iff_witness :
    ((false : Bool) = true ↔ 5 ≤ 2) ∧
      (2 : Nat) = ([[0], [0]] : List (List Nat)).length :=
  enumerate_cycles_with_info_truncated_iff ⟨[[0, 0]]⟩ 5 10 ⟨[[0], [0]], false, 2⟩
    (by decide)
